import Mathlib

/-!
Verification development for the metaheuristic production-planning engine.

The definitions below are a shallow embedding of the Python sources:

* `src/metaheuristic/ALNS_operator.py` — the evaluator/repairer
  (`ALNSOperator.repair_and_evaluate`, `set_pruning_best`, `get_efficiency`,
  the look-ahead guard, production realization, shipment/backlog update);
* `src/metaheuristic/tabu_search.py` — the orchestrator (capability warning
  at construction, the tabu admission walk of `solve`, `_perform_oscillation`,
  `_update_tenure`, `_update_mo_strategy`);
* `src/metaheuristic/neighbor_generator.py` — the bandit state and
  `update_reward`.

Modelling conventions:

* Styles are represented by their dense integer ids (the sorted bijection
  built in `ALNSOperator.__init__`), lines by naturals, periods by integers
  (the spec fixes `setT` to consecutive integers starting at 1, which is what
  makes the `line_capacity[l][t-1]` indexing of the source equal to
  `H l t * 60 * N l`).
* Python floats are modelled as rationals; `float('inf')` cost values as
  `⊤ : WithTop ℚ`.
* `random.choice` over a line's allowed list is modelled by an explicit
  choice function `pick : ℕ → ℕ`; theorems that depend on it carry the
  hypothesis that `pick l` lies in the allowed list when it is non-empty.
* Python dicts keyed by grid cells are modelled as total functions; the
  repair pass touches exactly the `lines × sortedTimes` grid, matching the
  key set of the assignment dict.
-/

/-- Pointwise update of a one-argument map (models a dict write). -/
def upd1 {α : Type} (f : ℕ → α) (l : ℕ) (v : α) : ℕ → α :=
  fun x => if x = l then v else f x

/-- Pointwise update of a (style/line, period)-keyed map. -/
def upd2 {α : Type} (f : ℕ → ℤ → α) (k : ℕ) (t : ℤ) (v : α) : ℕ → ℤ → α :=
  fun x y => if x = k ∧ y = t then v else f x y

/-- Pointwise update of a (line, style, period)-keyed map. -/
def upd3 {α : Type} (f : ℕ → ℕ → ℤ → α) (l k : ℕ) (t : ℤ) (v : α) :
    ℕ → ℕ → ℤ → α :=
  fun x y z => if x = l ∧ y = k ∧ z = t then v else f x y z

/-- Update of the changes record, keyed `(line, old_style, new_style, period)`. -/
def updCh (f : ℕ → Option ℕ → ℕ → ℤ → Bool) (l : ℕ) (o : Option ℕ) (n : ℕ)
    (t : ℤ) : ℕ → Option ℕ → ℕ → ℤ → Bool :=
  fun x y z w => if x = l ∧ y = o ∧ z = n ∧ w = t then true else f x y z w

/-- The `1e-6` tolerance used by the source for "fabric exhausted" and
"backlog positive" tests. -/
def eps6 : ℚ := 1 / 1000000

/-- An assignment grid `(line, period) → style id`; `none` models a missing
or null style (a cell of a line with no capability). -/
def Assignment : Type := ℕ → ℤ → Option ℕ

/-- The problem data visible to `ALNSOperator` after `__init__` and
`_precompute_data`: sets, id-keyed parameter maps and the learning curve. -/
structure ALNSData where
  lines : List ℕ
  styleIds : List ℕ
  allowed : ℕ → List ℕ
  sortedTimes : List ℤ
  H : ℕ → ℤ → ℚ
  N : ℕ → ℚ
  SAM : ℕ → ℚ
  Csetup : ℚ
  Rexp : ℚ
  alpha : ℚ
  Lexp : ℕ → ℕ → ℚ
  Plate : ℕ → ℚ
  Tfab : ℕ → ℤ
  Tprod : ℕ → ℤ
  F : ℕ → ℤ → ℚ
  D : ℕ → ℤ → ℚ
  ssame : ℕ → ℕ → Bool
  I0fab : ℕ → ℚ
  I0prod : ℕ → ℚ
  B0 : ℕ → ℚ
  Exp0 : ℕ → ℚ
  y0flag : ℕ → ℕ → Bool
  curve : List (ℚ × ℚ)

/-- `ALNSOperator._discount`: `1 / (1 + alpha) ** t`. -/
def discount (d : ALNSData) (t : ℤ) : ℚ := 1 / (1 + d.alpha) ^ t

/-- Membership in a line's allowed-style list (`ALNSOperator._is_allowed`). -/
def allowedB (d : ALNSData) (l s : ℕ) : Bool := d.allowed l |>.contains s

/-- `ALNSOperator._random_allowed_style_id`: `none` on an empty allowed list,
otherwise the (random, here externally chosen) element `pick l`. -/
def randAllowed (d : ALNSData) (pick : ℕ → ℕ) (l : ℕ) : Option ℕ :=
  if d.allowed l = [] then none else some (pick l)

/-- `ALNSOperator._get_initial_style_id`: first style id (in id order) whose
`paramY0` flag is set for the line. -/
def initialStyleId (d : ALNSData) (l : ℕ) : Option ℕ :=
  d.styleIds.find? (fun s => d.y0flag l s)

/-- `get_efficiency`'s scan loop: walk consecutive breakpoint pairs, linearly
interpolating on the first bracketing pair; fall through to the last value. -/
def interpScan (e : ℚ) : List (ℚ × ℚ) → ℚ
  | [] => 0
  | [p] => p.2
  | p :: q :: rest =>
      if p.1 ≤ e ∧ e ≤ q.1 then
        p.2 + (q.2 - p.2) * (e - p.1) / (q.1 - p.1)
      else interpScan e (q :: rest)

/-- `ALNSOperator.get_efficiency`: clamp below the first breakpoint and above
the last one, otherwise scan for the bracketing pair.  (An empty curve, which
would raise in Python, is mapped to 0.) -/
def get_efficiency (d : ALNSData) (e : ℚ) : ℚ :=
  match d.curve with
  | [] => 0
  | p :: rest =>
      if e ≤ p.1 then p.2
      else if ((p :: rest).getLast (by simp)).1 ≤ e then
        ((p :: rest).getLast (by simp)).2
      else interpScan e (p :: rest)

/-- The mutable simulation context threaded through one evaluation:
the working assignment, inventories, backlog, per-line states, production
history and the cost accumulators plus the record dicts of the solution. -/
structure Ctx where
  assign : Assignment
  invFab : ℕ → ℚ
  invProd : ℕ → ℚ
  backlog : ℕ → ℚ
  cur : ℕ → Option ℕ
  exp : ℕ → ℚ
  upExp : ℕ → ℚ
  hist : ℕ → ℤ → ℚ
  setupC : ℚ
  lateC : ℚ
  expR : ℚ
  production : ℕ → ℕ → ℤ → ℚ
  shipmentR : ℕ → ℤ → ℚ
  changesR : ℕ → Option ℕ → ℕ → ℤ → Bool
  expRec : ℕ → ℤ → ℚ
  effRec : ℕ → ℤ → ℚ

/-- Potential production per style: list of `(line, max_p)` entries, in
line order (the dict-of-lists `pot_prod`). -/
def PP : Type := ℕ → List (ℕ × ℚ)

/-- The per-line look-ahead decision (the `LOOK-AHEAD LOGIC` block):
starting from candidate style `s0`, keep the line's current style when
switching is blocked (no current style or same style means no guard; an
exhausted fabric inventory blocks the switch unless the next period keeps
the same candidate style). -/
def decideStyle (_d : ALNSData) (c : Ctx) (_t : ℤ) (nx : Option ℤ) (l s0 : ℕ) :
    ℕ :=
  match c.cur l with
  | none => s0
  | some c0 =>
      if c0 = s0 then s0
      else if c.invFab s0 ≤ eps6 then
        match nx with
        | some t2 => if c.assign l t2 = some s0 then s0 else c0
        | none => c0
      else s0

/-- Same-family test against an optional current style: a pair with a null
current style is never in `setSsame`. -/
def ssameOpt (d : ALNSData) (o : Option ℕ) (n : ℕ) : Bool :=
  match o with
  | some c0 => d.ssame c0 n
  | none => false

/-- Per-line-per-period capacity in minutes
(`line_capacity[l][t-1] = paramH[(l,t)] * 60 * paramN[l]`). -/
def lineCap (d : ALNSData) (l : ℕ) (t : ℤ) : ℚ := d.H l t * 60 * d.N l

/-- The per-line decision step of the simulation (`# 2. Decide Production`):
carry the worked-enough flag into experience, apply the look-ahead guard,
record changeover/setup, reset experience on a non-same-family change,
record experience and efficiency, accrue the experience reward, and register
potential production on a working day with positive SAM. -/
def lineStep (d : ALNSData) (t : ℤ) (nx : Option ℤ) (acc : Ctx × PP) (l : ℕ) :
    Ctx × PP :=
  let c := acc.1
  let pp := acc.2
  let e1 := c.exp l + c.upExp l
  match c.assign l t with
  | none =>
      ({ c with exp := upd1 c.exp l e1, upExp := upd1 c.upExp l 0 }, pp)
  | some s0 =>
      let s := decideStyle d c t nx l s0
      let a1 := if s = s0 then c.assign else upd2 c.assign l t (some s)
      let ch1 := if c.cur l = some s then c.changesR
                 else updCh c.changesR l (c.cur l) s t
      let su1 := if c.cur l = some s then c.setupC
                 else c.setupC + d.Csetup * discount d t
      let e2 := if c.cur l = some s then e1
                else if ssameOpt d (c.cur l) s then e1 else d.Lexp l s
      let eff := get_efficiency d e2
      let pp1 := if 0 < d.H l t ∧ 0 < d.SAM s then
          fun s' => if s' = s then pp s ++ [(l, lineCap d l t * eff / d.SAM s)]
                    else pp s'
        else pp
      ({ c with
          assign := a1
          exp := upd1 c.exp l e2
          upExp := upd1 c.upExp l 0
          cur := upd1 c.cur l (some s)
          changesR := ch1
          setupC := su1
          expRec := upd2 c.expRec l t e2
          effRec := upd2 c.effRec l t eff
          expR := c.expR + e2 * d.Rexp }, pp1)

/-- Fabric receipt for one style (`# 1. Fabric Receipts`). -/
def fabricStep (d : ALNSData) (t : ℤ) (c : Ctx) (s : ℕ) : Ctx :=
  { c with invFab := upd1 c.invFab s (c.invFab s + d.F s (t - d.Tfab s)) }

/-- Total potential output of the registered producer lines. -/
def sumPot (items : List (ℕ × ℚ)) : ℚ := items.foldl (fun acc i => acc + i.2) 0

/-- Distribute realized output proportionally and raise the worked-enough
flag of lines that realize at least half of their own potential. -/
def applyShares (t : ℤ) (s : ℕ) (actual total : ℚ) (c : Ctx)
    (items : List (ℕ × ℚ)) : Ctx :=
  items.foldl (fun c i =>
    let share := actual * i.2 / total
    let c1 := { c with production := upd3 c.production i.1 s t share }
    if (1 / 2 : ℚ) * i.2 ≤ share then { c1 with upExp := upd1 c1.upExp i.1 1 }
    else c1) c

/-- Capacity realization for one style (`# 3. Realise Production`): skip
styles with no producer; cap total output by fabric inventory, record the
day's production and decrement fabric. -/
def realizeStep (_d : ALNSData) (t : ℤ) (pp : PP) (c : Ctx) (s : ℕ) : Ctx :=
  match pp s with
  | [] => c
  | items =>
      let total := sumPot items
      let actual := min total (c.invFab s)
      let c1 := { c with
          hist := upd2 c.hist s t actual
          invFab := upd1 c.invFab s (c.invFab s - actual) }
      if 0 < total then applyShares t s actual total c1 items else c1

/-- Shipment and backlog update for one style (`# 4. Shipments & Backlog`):
receive finished goods after the finishing lead time, ship
`min(inventory, backlog + demand)`, roll the backlog forward and accrue the
discounted late penalty when the remaining backlog exceeds the tolerance. -/
def shipStep (d : ALNSData) (t : ℤ) (c : Ctx) (s : ℕ) : Ctx :=
  let finished := c.hist s (t - d.Tprod s)
  let ip := c.invProd s + finished
  let toShip := c.backlog s + d.D s t
  let ship := min ip toShip
  let newB := toShip - ship
  { c with
      invProd := upd1 c.invProd s (ip - ship)
      shipmentR := upd2 c.shipmentR s t ship
      backlog := upd1 c.backlog s newB
      lateC := if eps6 < newB then c.lateC + newB * d.Plate s * discount d t
               else c.lateC }

/-- One period of the simulation (one iteration of the `TIME LOOP`), given
the following period `nx` for the look-ahead. -/
def periodStep (d : ALNSData) (t : ℤ) (nx : Option ℤ) (c : Ctx) : Ctx :=
  let c1 := d.styleIds.foldl (fabricStep d t) c
  let st2 := d.lines.foldl (lineStep d t nx) (c1, fun _ => [])
  let c3 := d.styleIds.foldl (realizeStep d t st2.2) st2.1
  d.styleIds.foldl (shipStep d t) c3

/-- The simulation loop with the fast-fail check at the top of each period:
returns the final context and whether the run was aborted by the pruning
cutoff. -/
def simLoop (d : ALNSData) (cutoff : WithTop ℚ) (c : Ctx) :
    List ℤ → Ctx × Bool
  | [] => (c, false)
  | t :: rest =>
      if cutoff < some (c.setupC + c.lateC - c.expR) then (c, true)
      else simLoop d cutoff (periodStep d t rest.head? c) rest

/-- Repair of one cell (`REPAIR PHASE`): a missing or not-allowed style is
replaced by a random allowed style of the line. -/
def repairCell (d : ALNSData) (pick : ℕ → ℕ) (a : Assignment) (l : ℕ)
    (t : ℤ) : Option ℕ :=
  match a l t with
  | none => randAllowed d pick l
  | some s => if allowedB d l s then some s else randAllowed d pick l

/-- The repair pass over the `lines × sortedTimes` grid (the key set of the
assignment dict). -/
def repairA (d : ALNSData) (pick : ℕ → ℕ) (a : Assignment) : Assignment :=
  fun l t =>
    if l ∈ d.lines ∧ t ∈ d.sortedTimes then repairCell d pick a l t else a l t

/-- The fully annotated solution returned by the evaluator. -/
structure Sol where
  assignment : Assignment
  production : ℕ → ℕ → ℤ → ℚ
  shipment : ℕ → ℤ → ℚ
  changes : ℕ → Option ℕ → ℕ → ℤ → Bool
  experience : ℕ → ℤ → ℚ
  efficiency : ℕ → ℤ → ℚ
  final_backlog : ℕ → ℚ
  total_setup : ℚ
  total_late : ℚ
  total_exp : ℚ
  total_cost : WithTop ℚ

/-- Initial simulation context for an (already repaired) assignment. -/
def mkCtx (d : ALNSData) (a : Assignment) : Ctx where
  assign := a
  invFab := d.I0fab
  invProd := d.I0prod
  backlog := d.B0
  cur := fun l => initialStyleId d l
  exp := d.Exp0
  upExp := fun _ => 0
  hist := fun _ _ => 0
  setupC := 0
  lateC := 0
  expR := 0
  production := fun _ _ _ => 0
  shipmentR := fun _ _ => 0
  changesR := fun _ _ _ _ => false
  expRec := fun _ _ => 0
  effRec := fun _ _ => 0

/-- Pack the final context into a `Sol`.  An aborted (fast-failed) run gets
the `⊤` sentinel total cost; the Python sentinel leaves the cost-breakdown
keys unset, here they carry the partial accumulators, which no claim
inspects. -/
def finalizeSol (c : Ctx) (aborted : Bool) : Sol where
  assignment := c.assign
  production := c.production
  shipment := c.shipmentR
  changes := c.changesR
  experience := c.expRec
  efficiency := c.effRec
  final_backlog := c.backlog
  total_setup := c.setupC
  total_late := c.lateC
  total_exp := c.expR
  total_cost := if aborted then ⊤ else some (c.setupC + c.lateC - c.expR)

/-- `ALNSOperator.repair_and_evaluate`: repair the grid, run the simulation
under the pruning `cutoff`, and annotate the result. -/
def repair_and_evaluate (d : ALNSData) (pick : ℕ → ℕ) (cutoff : WithTop ℚ)
    (a : Assignment) : Sol :=
  let a1 := repairA d pick a
  let r := simLoop d cutoff (mkCtx d a1) d.sortedTimes
  finalizeSol r.1 r.2

/-- `ALNSOperator.set_pruning_best`: an infinite best cost disables pruning,
a finite one sets the cutoff to `best * 1.2`. -/
def set_pruning_best (best : WithTop ℚ) : WithTop ℚ :=
  match best with
  | ⊤ => ⊤
  | some b => some (b * (12 / 10))

/-- `ALNSOperator.initialize_solution`'s per-line total demand over the
horizon (after the id conversion of `paramD`). -/
def totalDemand (d : ALNSData) (s : ℕ) : ℚ :=
  (d.sortedTimes.map (fun t => d.D s t)).sum

/-- Python `max(candidates, key=f)`: first element attaining the maximum in
iteration order (a strictly greater value replaces the running best). -/
def argmaxBy (f : ℕ → ℚ) : List ℕ → Option ℕ
  | [] => none
  | x :: xs => some (xs.foldl (fun b y => if f b < f y then y else b) x)

/-- The style `initialize_solution` assigns to every period of a line:
the highest-total-demand allowed style, or the (null, for a line with an
empty allowed list) random allowed style when there are no candidates. -/
def initStyleFor (d : ALNSData) (pick : ℕ → ℕ) (l : ℕ) : Option ℕ :=
  match argmaxBy (totalDemand d) (d.allowed l) with
  | some s => some s
  | none => randAllowed d pick l

/-- `ALNSOperator.initialize_solution`: constant per-line assignment handed
to `repair_and_evaluate` (the pruning cutoff is still `+∞` at construction
time). -/
def init_solution (d : ALNSData) (pick : ℕ → ℕ) : Sol :=
  repair_and_evaluate d pick ⊤
    (fun l t =>
      if l ∈ d.lines ∧ t ∈ d.sortedTimes then initStyleFor d pick l else none)

/-- A move-signature entry `((line, date), old_style, new_style)`. -/
def SigEntry : Type := ℕ × ℤ × Option ℕ × Option ℕ

instance : DecidableEq SigEntry := by
  unfold SigEntry
  infer_instance

/-- Encode an optional style id for ordering purposes. -/
def encOpt : Option ℕ → ℕ
  | none => 0
  | some s => s + 1

/-- Lexicographic comparison of signature entries (the tuple ordering Python
uses in `sorted`). -/
def entryLeB (e f : SigEntry) : Bool :=
  if e.1 < f.1 then true
  else if f.1 < e.1 then false
  else if e.2.1 < f.2.1 then true
  else if f.2.1 < e.2.1 then false
  else if encOpt e.2.2.1 < encOpt f.2.2.1 then true
  else if encOpt f.2.2.1 < encOpt e.2.2.1 then false
  else encOpt e.2.2.2 ≤ encOpt f.2.2.2

/-- `TabuSearchSolver._get_move_signature`: the sorted list of per-cell
differences `((line, date), old_style, new_style)` between two assignments
over the grid. -/
def moveSignature (d : ALNSData) (a b : Assignment) : List SigEntry :=
  List.insertionSort (fun e f => entryLeB e f = true)
    (d.lines.flatMap (fun l =>
      d.sortedTimes.filterMap (fun t =>
        if a l t = b l t then none else some (l, t, a l t, b l t))))

/-- A candidate solution as the orchestrator sees it: assignment, scalar
cost and the `type == 'mo_move'` tag. -/
structure TCand where
  assignment : Assignment
  cost : WithTop ℚ
  isMoMove : Bool

/-- `NeighborGenerator`'s bandit state: Q-table, selection counters and the
epsilon-greedy exploration rate with its decay parameters. -/
structure GenState where
  q : ℕ → ℚ
  counts : ℕ → ℕ
  epsilon : ℚ
  lr : ℚ
  epsMin : ℚ
  epsDecay : ℚ

/-- `NeighborGenerator.update_reward`: the one-step bandit update
`Q[op] ← Q[op] + lr * (reward − Q[op])`, a selection-count bump and the
epsilon decay. -/
def update_reward (g : GenState) (op : ℕ) (reward : ℚ) : GenState :=
  { g with
      q := upd1 g.q op (g.q op + g.lr * (reward - g.q op))
      counts := upd1 g.counts op (g.counts op + 1)
      epsilon := if g.epsMin < g.epsilon then g.epsilon * g.epsDecay
                 else g.epsilon }

/-- The orchestrator state owned by `TabuSearchSolver`. -/
structure SolverState where
  current : TCand
  best : TCand
  bestCost : WithTop ℚ
  tabu : List (List SigEntry)
  tenure : ℕ
  minTenure : ℕ
  maxTenure : ℕ
  incThreshold : ℕ
  decThreshold : ℕ
  noImp : ℕ
  consecImp : ℕ
  moProb : ℚ
  moAtt : ℕ
  moAcc : ℕ
  costs : List (WithTop ℚ)
  gen : GenState

/-- `deque(maxlen=cap)` append: drop from the front once over capacity. -/
def dequePush {α : Type} (cap : ℕ) (q : List α) (x : α) : List α :=
  let q1 := q ++ [x]
  q1.drop (q1.length - cap)

/-- Rebuilding a deque with a new `maxlen` keeps the most recent entries. -/
def dequeTrim {α : Type} (cap : ℕ) (q : List α) : List α :=
  q.drop (q.length - cap)

/-- The admission walk of `solve`: scan candidates in cost order and return
the first admissible one (aspiration beats tabu; otherwise non-tabu),
together with whether it was admitted by aspiration. -/
def admitWalk (d : ALNSData) (curA : Assignment) (bestCost : WithTop ℚ)
    (tabu : List (List SigEntry)) : List TCand → Option (TCand × Bool)
  | [] => none
  | n :: rest =>
      let sig := moveSignature d curA n.assignment
      if n.cost < bestCost ∨ sig ∉ tabu then
        some (n, decide (n.cost < bestCost))
      else admitWalk d curA bestCost tabu rest

/-- The neighborhood-selection block of one `solve` iteration (sort the
batch, walk it, update tabu memory/best/counters, fall back to the lowest
cost candidate when every candidate is tabu and non-improving).  Returns the
new state, the admitted candidate, `found_valid_move` and
`chosen_move_is_mo`. -/
def solveSelect (d : ALNSData) (st : SolverState) (neighbors : List TCand) :
    SolverState × TCand × Bool × Bool :=
  let sorted := List.insertionSort (fun x y : TCand => x.cost ≤ y.cost) neighbors
  match admitWalk d st.current.assignment st.bestCost st.tabu sorted with
  | some (n, asp) =>
      let sig := moveSignature d st.current.assignment n.assignment
      let st1 := { st with tabu := dequePush st.tenure st.tabu sig }
      let st2 := if asp then
          { st1 with
              best := n
              bestCost := n.cost
              consecImp := st1.consecImp + 1
              noImp := 0 }
        else { st1 with noImp := st1.noImp + 1, consecImp := 0 }
      ({ st2 with current := n, costs := st2.costs ++ [n.cost] }, n,
        true, n.isMoMove)
  | none =>
      match sorted with
      | [] => (st, st.current, false, false)
      | n :: _ =>
          let st1 := { st with noImp := st.noImp + 1, consecImp := 0 }
          ({ st1 with current := n, costs := st1.costs ++ [n.cost] }, n,
            false, false)

/-- `TabuSearchSolver._update_tenure`: shrink toward the minimum after a run
of improvements, grow toward the maximum when stalled, trimming the tabu
deque to the new capacity. -/
def updateTenure (st : SolverState) : SolverState :=
  if st.decThreshold ≤ st.consecImp then
    let st1 := if st.minTenure < st.tenure then
        { st with
            tenure := st.tenure - 1
            tabu := dequeTrim (st.tenure - 1) st.tabu }
      else st
    { st1 with consecImp := 0 }
  else if st.incThreshold ≤ st.noImp then
    let st1 := if st.tenure < st.maxTenure then
        { st with
            tenure := st.tenure + 2
            tabu := dequeTrim (st.tenure + 2) st.tabu }
      else st
    { st1 with noImp := 0 }
  else st

/-- `TabuSearchSolver._update_mo_strategy`: bump the attempt/accept counters
and every 50+ attempts nudge the fixed multi-objective move probability. -/
def updateMoStrategy (st : SolverState) (moveWasMo moveWasImp : Bool) :
    SolverState :=
  let st1 := if moveWasMo then
      { st with
          moAtt := st.moAtt + 1
          moAcc := if moveWasImp then st.moAcc + 1 else st.moAcc }
    else st
  if 50 < st1.moAtt then
    { st1 with
        moProb := if (15 / 100 : ℚ) < (st1.moAcc : ℚ) / (st1.moAtt : ℚ) then
            min (9 / 10) (st1.moProb + 5 / 100)
          else max (2 / 10) (st1.moProb - 5 / 100)
        moAtt := 0
        moAcc := 0 }
  else st1

/-- Multiplication of an optionally-infinite cost by a positive scalar
(`inf * 1.1 == inf`). -/
def mulTop (c : WithTop ℚ) (k : ℚ) : WithTop ℚ := c.map (fun x => x * k)

/-- `TabuSearchSolver._perform_oscillation`, acceptance part: the relaxed
and repaired solution (produced upstream by the oscillation handler) is
adopted as the new best when it improves the global best (clearing tabu
memory), or — after more than 200 stagnant iterations — as the new current
solution when its cost is below `current * 1.1` (also clearing tabu memory
and resetting the stall counter to 50).  Returns the flag `improved`. -/
def performOscillation (st : SolverState) (feasibleSol : TCand) :
    SolverState × Bool :=
  if feasibleSol.cost < st.bestCost then
    ({ st with
        best := feasibleSol
        bestCost := feasibleSol.cost
        current := feasibleSol
        consecImp := st.consecImp + 1
        noImp := 0
        tabu := [] }, true)
  else if 200 < st.noImp ∧ feasibleSol.cost < mulTop st.current.cost (11 / 10)
  then
    ({ st with current := feasibleSol, tabu := [], noImp := 50 }, true)
  else (st, false)

/-- One iteration of `TabuSearchSolver.solve` (after the wall-clock check),
parametrized by the externally produced random artifacts: the repaired
oscillation solution `oscSol` (consulted only when the oscillation condition
fires) and the neighbor batch.  Mirrors: pruning-ceiling push (an
evaluator-side effect), conditional oscillation with its skip, the
admission walk, the MO-probability update and the tenure adaptation. -/
def solveIteration (d : ALNSData) (st : SolverState) (i : ℕ) (oscSol : TCand)
    (neighbors : List TCand) : SolverState :=
  let osc := if 50 < i ∧ (150 < st.noImp ∨ i % 250 = 0) then
      performOscillation st oscSol
    else (st, false)
  let st1 := osc.1
  if osc.2 ∧ st1.noImp = 0 then st1
  else match neighbors with
    | [] => st1
    | _ :: _ =>
        let r := solveSelect d st1 neighbors
        let st2 := r.1
        let found := r.2.2.1
        let isMo := r.2.2.2
        let wasImp := if 1 < st2.costs.length then
            found ∧ r.2.1.cost < st2.costs.getD (st2.costs.length - 2) ⊤
          else False
        updateTenure (updateMoStrategy st2 isMo (decide wasImp))

/-- The capability check in `TabuSearchSolver.__init__`: lines with an empty
allowed-style set are reported (by a printed warning). -/
def capWarnings (d : ALNSData) : List ℕ :=
  d.lines.filter (fun l => d.allowed l = [])

/-- What `TabuSearchSolver.__init__` produces: the warning list and the
initial (current = best) solution. -/
structure TabuInitResult where
  warnings : List ℕ
  current : Sol
  bestCost : WithTop ℚ

/-- `TabuSearchSolver.__init__` after the component setup: warn about
incapable lines, build the initial solution and record its cost as the best
cost.  Construction always succeeds; no exception path exists. -/
def tabuSolverInit (d : ALNSData) (pick : ℕ → ℕ) : TabuInitResult :=
  let sol := init_solution d pick
  { warnings := capWarnings d
    current := sol
    bestCost := sol.total_cost }

/-- A trivial choice function (always style 0). -/
def pick0 : ℕ → ℕ := fun _ => 0

/-- A choice function that always returns style 2. -/
def pick2 : ℕ → ℕ := fun _ => 2

/-- One line, two styles, one period; the line starts on style 1 (`paramY0`)
and is scheduled to change to style 0, incurring one undiscounted setup of
150 in the single period — after the only fast-fail check. -/
def dataC1 : ALNSData where
  lines := [0]
  styleIds := [0, 1]
  allowed := fun l => if l = 0 then [0, 1] else []
  sortedTimes := [1]
  H := fun _ _ => 8
  N := fun _ => 10
  SAM := fun _ => 1
  Csetup := 150
  Rexp := 0
  alpha := 0
  Lexp := fun _ _ => 0
  Plate := fun _ => 0
  Tfab := fun _ => 0
  Tprod := fun _ => 0
  F := fun _ _ => 0
  D := fun _ _ => 0
  ssame := fun _ _ => false
  I0fab := fun s => if s = 0 then 5 else 0
  I0prod := fun _ => 0
  B0 := fun _ => 0
  Exp0 := fun _ => 0
  y0flag := fun l s => decide (l = 0 ∧ s = 1)
  curve := [(0, 1 / 2), (100, 1)]

/-- The assignment scheduling style 0 in the single period of `dataC1`. -/
def aC1 : Assignment := fun l t => if l = 0 ∧ t = 1 then some 0 else none

/-- One line allowed `{0, 2}`, but starting (via `paramY0`) on the
not-allowed style 1; style 0 has exhausted fabric, so the look-ahead guard
forces the line back onto style 1 at period 1. -/
def dataC2 : ALNSData where
  lines := [0]
  styleIds := [0, 1, 2]
  allowed := fun l => if l = 0 then [0, 2] else []
  sortedTimes := [1, 2]
  H := fun _ _ => 0
  N := fun _ => 10
  SAM := fun _ => 1
  Csetup := 150
  Rexp := 0
  alpha := 0
  Lexp := fun _ _ => 0
  Plate := fun _ => 0
  Tfab := fun _ => 0
  Tprod := fun _ => 0
  F := fun _ _ => 0
  D := fun _ _ => 0
  ssame := fun _ _ => false
  I0fab := fun _ => 0
  I0prod := fun _ => 0
  B0 := fun _ => 0
  Exp0 := fun _ => 0
  y0flag := fun l s => decide (l = 0 ∧ s = 1)
  curve := [(0, 1 / 2), (100, 1)]

/-- The capability-feasible input assignment for `dataC2`: style 0 at
period 1, style 2 at period 2. -/
def aC2 : Assignment := fun l t =>
  if l = 0 ∧ t = 1 then some 0
  else if l = 0 ∧ t = 2 then some 2
  else none

/-- Like `dataC2` but with fabric available for style 2 and a positive
discount rate, so that the period at which the single changeover lands
changes the discounted setup cost. -/
def dataC10 : ALNSData where
  lines := [0]
  styleIds := [0, 1, 2]
  allowed := fun l => if l = 0 then [0, 2] else []
  sortedTimes := [1, 2]
  H := fun _ _ => 0
  N := fun _ => 10
  SAM := fun _ => 1
  Csetup := 150
  Rexp := 0
  alpha := 1
  Lexp := fun _ _ => 0
  Plate := fun _ => 0
  Tfab := fun _ => 0
  Tprod := fun _ => 0
  F := fun _ _ => 0
  D := fun _ _ => 0
  ssame := fun _ _ => false
  I0fab := fun s => if s = 2 then 5 else 0
  I0prod := fun _ => 0
  B0 := fun _ => 0
  Exp0 := fun _ => 0
  y0flag := fun l s => decide (l = 0 ∧ s = 1)
  curve := [(0, 1 / 2), (100, 1)]

/-- One line with an empty allowed-style set (`paramYenable` all zero). -/
def dataC3 : ALNSData where
  lines := [0]
  styleIds := [0]
  allowed := fun _ => []
  sortedTimes := [1]
  H := fun _ _ => 8
  N := fun _ => 10
  SAM := fun _ => 1
  Csetup := 150
  Rexp := 0
  alpha := 0
  Lexp := fun _ _ => 0
  Plate := fun _ => 0
  Tfab := fun _ => 0
  Tprod := fun _ => 0
  F := fun _ _ => 0
  D := fun _ _ => 0
  ssame := fun _ _ => false
  I0fab := fun _ => 0
  I0prod := fun _ => 0
  B0 := fun _ => 0
  Exp0 := fun _ => 0
  y0flag := fun _ _ => false
  curve := [(0, 1 / 2), (100, 1)]

/-- A learning curve with x-values ordered but efficiency values
decreasing: `(0, 1)` then `(10, 0)`. -/
def dataC9 : ALNSData where
  lines := []
  styleIds := []
  allowed := fun _ => []
  sortedTimes := []
  H := fun _ _ => 0
  N := fun _ => 0
  SAM := fun _ => 0
  Csetup := 0
  Rexp := 0
  alpha := 0
  Lexp := fun _ _ => 0
  Plate := fun _ => 0
  Tfab := fun _ => 0
  Tprod := fun _ => 0
  F := fun _ _ => 0
  D := fun _ _ => 0
  ssame := fun _ _ => false
  I0fab := fun _ => 0
  I0prod := fun _ => 0
  B0 := fun _ => 0
  Exp0 := fun _ => 0
  y0flag := fun _ _ => false
  curve := [(0, 1), (10, 0)]

/-- The bandit state used in concrete orchestrator states. -/
def genW : GenState where
  q := fun _ => 10
  counts := fun _ => 0
  epsilon := 3 / 10
  lr := 1 / 10
  epsMin := 1 / 20
  epsDecay := 995 / 1000

/-- A candidate with an empty assignment and the given cost. -/
def candW (c : WithTop ℚ) : TCand where
  assignment := fun _ _ => none
  cost := c
  isMoMove := false

/-- An orchestrator state deep in stagnation (201 iterations without
improvement), with a non-empty tabu memory and best = current cost 10. -/
def stC7 : SolverState where
  current := candW (some 10)
  best := candW (some 10)
  bestCost := some 10
  tabu := [[(0, 1, none, some 0)]]
  tenure := 15
  minTenure := 5
  maxTenure := 40
  incThreshold := 50
  decThreshold := 10
  noImp := 201
  consecImp := 0
  moProb := 1 / 2
  moAtt := 0
  moAcc := 0
  costs := []
  gen := genW

/-- C1, counterexample.  With the orchestrator-set ceiling
`set_pruning_best 10 = 12`, `repair_and_evaluate` on `dataC1`/`aC1` returns
the finite total cost 150 > 12: the fast-fail check runs only at the start
of each period, so cost accrued in the last period is never compared with
the cutoff, contradicting "it never returns a finite total_cost greater
than the cutoff". -/
theorem c1_counterexample :
    set_pruning_best (some 10) = some 12 ∧
    (repair_and_evaluate dataC1 pick0 (set_pruning_best (some 10))
        aC1).total_cost = some 150 ∧
    (12 : ℚ) < 150 := by
  refine ⟨by norm_num [set_pruning_best], ?_, by norm_num⟩
  simp only [repair_and_evaluate, finalizeSol]
  norm_num [simLoop, periodStep, lineStep, fabricStep,
    realizeStep, shipStep, decideStyle, ssameOpt, get_efficiency, interpScan,
    mkCtx, repairA, repairCell, randAllowed, allowedB, initialStyleId,
    upd1, upd2, upd3, updCh, eps6, discount, lineCap, sumPot, applyShares,
    set_pruning_best, dataC1, aC1, pick0, not_top_lt]

/-- C2, counterexample.  On `dataC2` (every line's allowed set non-empty)
with the capability-feasible input `aC2`, the look-ahead guard overwrites
the period-1 cell with the line's initial `paramY0` style 1, which is not
capability-enabled for line 0 — the returned assignment violates
capability. -/
theorem c2_counterexample :
    (repair_and_evaluate dataC2 pick0 ⊤ aC2).assignment 0 1 = some 1 ∧
    allowedB dataC2 0 1 = false ∧
    dataC2.allowed 0 ≠ [] := by
  refine ⟨?_, by decide, by decide⟩
  simp only [repair_and_evaluate, finalizeSol]
  norm_num [simLoop, periodStep, lineStep, fabricStep,
    realizeStep, shipStep, decideStyle, ssameOpt, get_efficiency, interpScan,
    mkCtx, repairA, repairCell, randAllowed, allowedB, initialStyleId,
    upd1, upd2, upd3, updCh, eps6, discount, lineCap, sumPot, applyShares,
    dataC2, aC2, pick0, not_top_lt]

/-- C3, counterexample.  On `dataC3`, whose single line 0 has an empty
allowed-style set, `TabuSearchSolver.__init__` does not raise: it records a
printed warning for line 0 and proceeds to build the initial solution
(best cost 0), so the search starts instead of refusing to run. -/
theorem c3_counterexample :
    (tabuSolverInit dataC3 pick0).warnings = [0] ∧
    (tabuSolverInit dataC3 pick0).bestCost = some 0 := by
  refine ⟨by decide, ?_⟩
  simp only [tabuSolverInit, init_solution, repair_and_evaluate, finalizeSol]
  norm_num [initStyleFor, argmaxBy,
    totalDemand, simLoop, periodStep, lineStep,
    fabricStep, realizeStep, shipStep, decideStyle, ssameOpt, get_efficiency,
    interpScan, mkCtx, repairA, repairCell, randAllowed, allowedB,
    initialStyleId, upd1, upd2, upd3, updCh, eps6, discount, lineCap, sumPot,
    applyShares, dataC3, pick0, not_top_lt]

/-- C7, counterexample.  In the stagnation branch of
`_perform_oscillation` (201 stagnant iterations, repaired cost 10.5 within
10% of the current cost 10 but not better than the best cost 10), the best
solution is unchanged yet the tabu memory IS cleared, contradicting "the
tabu memory is not cleared". -/
theorem c7_counterexample :
    stC7.tabu ≠ [] ∧
    (performOscillation stC7 (candW (some (21 / 2)))).1.bestCost = some 10 ∧
    (performOscillation stC7 (candW (some (21 / 2)))).1.best.cost = some 10 ∧
    (performOscillation stC7 (candW (some (21 / 2)))).1.noImp = 50 ∧
    (performOscillation stC7 (candW (some (21 / 2)))).1.tabu = [] := by
  have h1 : ¬ (candW (some (21 / 2))).cost < stC7.bestCost := by
    have hq : ¬ ((21 / 2 : ℚ) : WithTop ℚ) < ((10 : ℚ) : WithTop ℚ) :=
      by exact_mod_cast (by norm_num : ¬ (21 / 2 : ℚ) < 10)
    exact hq
  have h2 : 200 < stC7.noImp ∧
      (candW (some (21 / 2))).cost < mulTop stC7.current.cost (11 / 10) := by
    refine ⟨by norm_num [stC7], ?_⟩
    have hq : ((21 / 2 : ℚ) : WithTop ℚ) < ((10 * (11 / 10) : ℚ) : WithTop ℚ) :=
      by exact_mod_cast (by norm_num : (21 / 2 : ℚ) < 10 * (11 / 10))
    exact hq
  unfold performOscillation
  rw [if_neg h1, if_pos h2]
  exact ⟨by decide, rfl, rfl, rfl, rfl⟩

/-- C9, counterexample.  With breakpoints ordered by x but with decreasing
efficiency values (`dataC9.curve = [(0,1),(10,0)]`), `get_efficiency` is
not non-decreasing: it returns 1 at experience 0 and 0 at experience 10. -/
theorem c9_counterexample :
    get_efficiency dataC9 0 = 1 ∧
    get_efficiency dataC9 10 = 0 ∧
    (0 : ℚ) ≤ 10 ∧
    ¬ get_efficiency dataC9 0 ≤ get_efficiency dataC9 10 := by
  refine ⟨?_, ?_, by norm_num, ?_⟩ <;>
    norm_num [get_efficiency, interpScan, dataC9]

/-- The assignment that the first evaluation of `aC2` on `dataC10` returns:
period 1 was rewritten to the initial style 1 by the look-ahead guard. -/
def aC10x : Assignment := fun l t =>
  if l = 0 ∧ t = 1 then some 1
  else if l = 0 ∧ t = 2 then some 2
  else none

/-- On `dataC10`, the first evaluation of `aC2` returns the assignment
`aC10x` (the look-ahead guard forced period 1 back to style 1). -/
lemma c10_first_assignment :
    (repair_and_evaluate dataC10 pick2 ⊤ aC2).assignment = aC10x := by
  funext l t
  simp only [repair_and_evaluate, finalizeSol]
  norm_num [simLoop, periodStep, lineStep, fabricStep,
    realizeStep, shipStep, decideStyle, ssameOpt, get_efficiency, interpScan,
    mkCtx, repairA, repairCell, randAllowed, allowedB, initialStyleId,
    upd1, upd2, upd3, updCh, eps6, discount, lineCap, sumPot, applyShares,
    dataC10, aC2, pick2, aC10x, not_top_lt]
  rcases Decidable.em (l = 0) with hl | hl <;>
    rcases Decidable.em (t = (1 : ℤ)) with ht | ht <;>
      rcases Decidable.em (t = (2 : ℤ)) with ht2 | ht2 <;>
        simp_all

/-- The assignment after the second run's repair phase: the infeasible
initial style at period 1 is re-repaired to the picked style 2. -/
def aC10y : Assignment := fun l t =>
  if l = 0 ∧ (t = 1 ∨ t = 2) then some 2 else none

/-- The second run's repair phase replaces the capability-violating style 1
at period 1 with the picked allowed style 2. -/
lemma c10_second_repair : repairA dataC10 pick2 aC10x = aC10y := by
  funext l t
  norm_num [repairA, repairCell, randAllowed, allowedB, aC10x, aC10y,
    dataC10, pick2]
  rcases Decidable.em (l = 0) with hl | hl <;>
    rcases Decidable.em (t = (1 : ℤ)) with ht | ht <;>
      rcases Decidable.em (t = (2 : ℤ)) with ht2 | ht2 <;>
        simp_all

/-- C10, counterexample.  The input `aC2` is capability-feasible on
`dataC10` and the ceiling is `+∞`, yet evaluation is not idempotent: the
first evaluation's look-ahead guard rewrites the period-1 cell to the
line's (not allowed) initial style, so the second evaluation re-repairs it
and the single changeover lands one period earlier, giving total cost 75
instead of 75/2. -/
theorem c10_counterexample :
    (repair_and_evaluate dataC10 pick2 ⊤ aC2).total_cost = some (75 / 2) ∧
    (repair_and_evaluate dataC10 pick2 ⊤
        ((repair_and_evaluate dataC10 pick2 ⊤ aC2).assignment)).total_cost
      = some 75 ∧
    ((75 : ℚ) / 2) ≠ 75 := by
  rw [c10_first_assignment]
  refine ⟨?_, ?_, by norm_num⟩ <;>
    · simp only [repair_and_evaluate, finalizeSol, c10_second_repair]
      norm_num [simLoop, periodStep, lineStep, fabricStep,
        realizeStep, shipStep, decideStyle, ssameOpt, get_efficiency,
        interpScan, mkCtx, repairA, repairCell, randAllowed, allowedB,
        initialStyleId, upd1, upd2, upd3, updCh, eps6, discount, lineCap,
        sumPot, applyShares, dataC10, aC2, aC10y, pick2, not_top_lt]

/-- A capped simulation run either agrees with the uncapped run or ends
aborted: the two runs take identical period steps until a fast-fail check
fires. -/
lemma simLoop_eq_or_aborted (d : ALNSData) (cutoff : WithTop ℚ)
    (ts : List ℤ) : ∀ c : Ctx,
    simLoop d cutoff c ts = simLoop d ⊤ c ts ∨
    (simLoop d cutoff c ts).2 = true := by
  induction ts with
  | nil => intro c; exact Or.inl rfl
  | cons t rest ih =>
      intro c
      by_cases h : cutoff < some (c.setupC + c.lateC - c.expR)
      · right; simp [simLoop, h]
      · rcases ih (periodStep d t rest.head? c) with h3 | h3
        · left; simp [simLoop, h, not_top_lt, h3]
        · right; simp [simLoop, h, h3]

/-- C1, amended.  With the orchestrator-set pruning ceiling
`set_pruning_best best`, `repair_and_evaluate` either returns exactly the
result of the ceiling-`+∞` evaluation or the sentinel with
`total_cost = ⊤`; because the fast-fail check runs only at the start of
each period, the non-sentinel branch may still carry a finite total cost
above the cutoff (see `c1_counterexample`). -/
theorem c1_amended (d : ALNSData) (pick : ℕ → ℕ) (best : WithTop ℚ)
    (a : Assignment) :
    repair_and_evaluate d pick (set_pruning_best best) a
      = repair_and_evaluate d pick ⊤ a ∨
    (repair_and_evaluate d pick (set_pruning_best best) a).total_cost = ⊤ := by
  unfold repair_and_evaluate
  dsimp only
  rcases simLoop_eq_or_aborted d (set_pruning_best best) d.sortedTimes
      (mkCtx d (repairA d pick a)) with h | h
  · left; rw [h]
  · right; simp [finalizeSol, h]

/-- One shipment step only touches its own style's inventory, shipment
record and backlog (and the scalar late cost); the history map and all
other styles' entries are untouched. -/
lemma shipStep_frame (d : ALNSData) (t : ℤ) (c : Ctx) {s x : ℕ}
    (h : s ≠ x) :
    (shipStep d t c x).backlog s = c.backlog s ∧
    (shipStep d t c x).invProd s = c.invProd s ∧
    (shipStep d t c x).shipmentR s t = c.shipmentR s t ∧
    (shipStep d t c x).hist = c.hist := by
  refine ⟨?_, ?_, ?_, rfl⟩ <;> simp [shipStep, upd1, upd2, h]

/-- The shipment fold over styles not containing `s` leaves the
`s`-projections (and the history) unchanged. -/
lemma foldl_shipStep_frame (d : ALNSData) (t : ℤ) (s : ℕ) :
    ∀ (xs : List ℕ), s ∉ xs → ∀ c : Ctx,
    (xs.foldl (shipStep d t) c).backlog s = c.backlog s ∧
    (xs.foldl (shipStep d t) c).invProd s = c.invProd s ∧
    (xs.foldl (shipStep d t) c).shipmentR s t = c.shipmentR s t ∧
    (xs.foldl (shipStep d t) c).hist = c.hist := by
  intro xs
  induction xs with
  | nil => intro _ c; exact ⟨rfl, rfl, rfl, rfl⟩
  | cons x rest ih =>
      intro hs c
      have hsx : s ≠ x := fun h => hs (h ▸ List.mem_cons_self x rest)
      have hrest : s ∉ rest := fun h => hs (List.mem_cons_of_mem x h)
      rcases ih hrest (shipStep d t c x) with ⟨h1, h2, h3, h4⟩
      rcases shipStep_frame d t c hsx with ⟨g1, g2, g3, g4⟩
      exact ⟨by rw [List.foldl_cons, h1, g1],
             by rw [List.foldl_cons, h2, g2],
             by rw [List.foldl_cons, h3, g3],
             by rw [List.foldl_cons, h4, g4]⟩

/-- The single-style shipment update satisfies the claimed recurrence
exactly. -/
lemma shipStep_spec (d : ALNSData) (t : ℤ) (c : Ctx) (s : ℕ) :
    (shipStep d t c s).shipmentR s t
      = min (c.invProd s + c.hist s (t - d.Tprod s)) (c.backlog s + d.D s t) ∧
    (shipStep d t c s).backlog s
      = max 0 (c.backlog s + d.D s t - (shipStep d t c s).shipmentR s t) ∧
    (shipStep d t c s).invProd s
      = c.invProd s + c.hist s (t - d.Tprod s)
        - (shipStep d t c s).shipmentR s t := by
  have hship : (shipStep d t c s).shipmentR s t
      = min (c.invProd s + c.hist s (t - d.Tprod s)) (c.backlog s + d.D s t) := by
    simp [shipStep, upd2]
  refine ⟨hship, ?_, ?_⟩
  · rw [hship]
    have hle : min (c.invProd s + c.hist s (t - d.Tprod s))
        (c.backlog s + d.D s t) ≤ c.backlog s + d.D s t := min_le_right _ _
    have h0 : 0 ≤ c.backlog s + d.D s t
        - min (c.invProd s + c.hist s (t - d.Tprod s)) (c.backlog s + d.D s t) :=
      sub_nonneg.mpr hle
    rw [max_eq_right h0]
    simp [shipStep, upd1]
  · rw [hship]
    simp [shipStep, upd1]

/-- The generic form of C8's recurrence over an arbitrary duplicate-free
style list (induction target for `c8_backlog_recurrence`). -/
lemma foldl_shipStep_spec (d : ALNSData) (t : ℤ) (s : ℕ) :
    ∀ (xs : List ℕ), xs.Nodup → s ∈ xs → ∀ c : Ctx,
    (xs.foldl (shipStep d t) c).shipmentR s t
      = min (c.invProd s + c.hist s (t - d.Tprod s)) (c.backlog s + d.D s t) ∧
    (xs.foldl (shipStep d t) c).backlog s
      = max 0 (c.backlog s + d.D s t
          - (xs.foldl (shipStep d t) c).shipmentR s t) ∧
    (xs.foldl (shipStep d t) c).invProd s
      = c.invProd s + c.hist s (t - d.Tprod s)
        - (xs.foldl (shipStep d t) c).shipmentR s t := by
  intro xs
  induction xs with
  | nil => intro _ hmem; exact absurd hmem (List.not_mem_nil s)
  | cons x rest ih =>
      intro hnd hmem c
      rcases List.nodup_cons.mp hnd with ⟨hxnotin, hndrest⟩
      by_cases hsx : s = x
      · subst hsx
        have hs : s ∉ rest := hxnotin
        rcases foldl_shipStep_frame d t s rest hs (shipStep d t c s)
          with ⟨h1, h2, h3, h4⟩
        rcases shipStep_spec d t c s with ⟨g1, g2, g3⟩
        rw [List.foldl_cons]
        exact ⟨by rw [h3, g1], by rw [h3, h1, g2], by rw [h3, h2, g3]⟩
      · have hs : s ∈ rest := by
          rcases List.mem_cons.mp hmem with h | h
          · exact absurd h hsx
          · exact h
        rcases shipStep_frame d t c (by exact hsx : s ≠ x) with ⟨g1, g2, g3, g4⟩
        rcases ih hndrest hs (shipStep d t c x) with ⟨h1, h2, h3⟩
        rw [List.foldl_cons]
        exact ⟨by rw [h1, g2, g4, g1], by rw [h2, g1],
               by rw [h3, g2, g4]⟩

/-- C8.  In the per-period shipment pass of the simulation (the fold of
`shipStep` over the style list that `periodStep` performs), every style's
post-period backlog satisfies
`backlog' = max 0 (backlog + demand − shipped)` exactly, with
`shipped = min (finished-goods inventory after the lead-time receipt,
backlog + demand)` and the finished-goods inventory decreased by the
shipped amount. -/
theorem c8_backlog_recurrence (d : ALNSData) (t : ℤ) (c : Ctx)
    (hnd : d.styleIds.Nodup) (s : ℕ) (hs : s ∈ d.styleIds) :
    ((d.styleIds.foldl (shipStep d t) c).shipmentR s t
      = min (c.invProd s + c.hist s (t - d.Tprod s)) (c.backlog s + d.D s t)) ∧
    ((d.styleIds.foldl (shipStep d t) c).backlog s
      = max 0 (c.backlog s + d.D s t
          - (d.styleIds.foldl (shipStep d t) c).shipmentR s t)) ∧
    ((d.styleIds.foldl (shipStep d t) c).invProd s
      = c.invProd s + c.hist s (t - d.Tprod s)
        - (d.styleIds.foldl (shipStep d t) c).shipmentR s t) :=
  foldl_shipStep_spec d t s d.styleIds hnd hs c

/-- C8, witness at a concrete state: the recurrence instantiated on
`dataC1`'s style list and the initial context of `aC1`. -/
theorem c8_backlog_recurrence_witness :
    dataC1.styleIds.Nodup ∧ 0 ∈ dataC1.styleIds ∧
    (((dataC1.styleIds.foldl (shipStep dataC1 1) (mkCtx dataC1 aC1)).shipmentR 0 1
      = min ((mkCtx dataC1 aC1).invProd 0
          + (mkCtx dataC1 aC1).hist 0 (1 - dataC1.Tprod 0))
        ((mkCtx dataC1 aC1).backlog 0 + dataC1.D 0 1)) ∧
    ((dataC1.styleIds.foldl (shipStep dataC1 1) (mkCtx dataC1 aC1)).backlog 0
      = max 0 ((mkCtx dataC1 aC1).backlog 0 + dataC1.D 0 1
          - (dataC1.styleIds.foldl (shipStep dataC1 1)
              (mkCtx dataC1 aC1)).shipmentR 0 1)) ∧
    ((dataC1.styleIds.foldl (shipStep dataC1 1) (mkCtx dataC1 aC1)).invProd 0
      = (mkCtx dataC1 aC1).invProd 0
          + (mkCtx dataC1 aC1).hist 0 (1 - dataC1.Tprod 0)
        - (dataC1.styleIds.foldl (shipStep dataC1 1)
            (mkCtx dataC1 aC1)).shipmentR 0 1)) :=
  ⟨by decide, by decide,
    c8_backlog_recurrence dataC1 1 (mkCtx dataC1 aC1) (by decide) 0 (by decide)⟩

/-- C7, amended.  The oscillation step clears the tabu memory in both of
its acceptance branches: on a strict global improvement (best, best cost
and current all replaced by the repaired solution), and in the stagnation
branch (more than 200 stagnant iterations and cost below `current × 1.1`),
where the best solution is unchanged, the repaired solution becomes the
current one and the stall counter is reset to 50. -/
theorem c7_amended (st : SolverState) (sol : TCand) :
    (sol.cost < st.bestCost →
      (performOscillation st sol).1.tabu = [] ∧
      (performOscillation st sol).1.best = sol ∧
      (performOscillation st sol).1.bestCost = sol.cost ∧
      (performOscillation st sol).1.current = sol) ∧
    (¬ sol.cost < st.bestCost → 200 < st.noImp →
      sol.cost < mulTop st.current.cost (11 / 10) →
      (performOscillation st sol).1.tabu = [] ∧
      (performOscillation st sol).1.best = st.best ∧
      (performOscillation st sol).1.bestCost = st.bestCost ∧
      (performOscillation st sol).1.current = sol ∧
      (performOscillation st sol).1.noImp = 50) := by
  constructor
  · intro h
    unfold performOscillation
    rw [if_pos h]
    exact ⟨rfl, rfl, rfl, rfl⟩
  · intro hb hno hc
    unfold performOscillation
    rw [if_neg hb, if_pos ⟨hno, hc⟩]
    exact ⟨rfl, rfl, rfl, rfl, rfl⟩

/-- C7, witness: the stagnation branch of `c7_amended` instantiated at the
concrete state `stC7` and repaired cost 10.5. -/
theorem c7_amended_witness :
    (performOscillation stC7 (candW (some (21 / 2)))).1.tabu = [] ∧
    (performOscillation stC7 (candW (some (21 / 2)))).1.best = stC7.best ∧
    (performOscillation stC7 (candW (some (21 / 2)))).1.bestCost
      = stC7.bestCost ∧
    (performOscillation stC7 (candW (some (21 / 2)))).1.current
      = candW (some (21 / 2)) ∧
    (performOscillation stC7 (candW (some (21 / 2)))).1.noImp = 50 :=
  (c7_amended stC7 (candW (some (21 / 2)))).2
    (by
      have hq : ¬ ((21 / 2 : ℚ) : WithTop ℚ) < ((10 : ℚ) : WithTop ℚ) :=
        by exact_mod_cast (by norm_num : ¬ (21 / 2 : ℚ) < 10)
      exact hq)
    (by norm_num [stC7])
    (by
      have hq : ((21 / 2 : ℚ) : WithTop ℚ)
          < ((10 * (11 / 10) : ℚ) : WithTop ℚ) :=
        by exact_mod_cast (by norm_num : (21 / 2 : ℚ) < 10 * (11 / 10))
      exact hq)

/-- The oscillation step never touches the bandit state. -/
lemma performOscillation_gen (st : SolverState) (sol : TCand) :
    (performOscillation st sol).1.gen = st.gen := by
  unfold performOscillation
  split_ifs <;> rfl

/-- The admission/selection block never touches the bandit state. -/
lemma solveSelect_gen (d : ALNSData) (st : SolverState)
    (neighbors : List TCand) :
    (solveSelect d st neighbors).1.gen = st.gen := by
  unfold solveSelect
  dsimp only
  split
  · split_ifs <;> rfl
  · split <;> rfl

/-- Tenure adaptation never touches the bandit state. -/
lemma updateTenure_gen (st : SolverState) :
    (updateTenure st).gen = st.gen := by
  unfold updateTenure
  split_ifs <;> rfl

/-- MO-probability adaptation never touches the bandit state. -/
lemma updateMoStrategy_gen (st : SolverState) (a b : Bool) :
    (updateMoStrategy st a b).gen = st.gen := by
  unfold updateMoStrategy
  dsimp only
  split_ifs <;> rfl

/-- C6.  No iteration of `solve` ever updates the bandit state: the
Q-table, selection counts and epsilon of the neighbor generator are
unchanged by `solveIteration` — `NeighborGenerator.update_reward`
(which implements `Q[op] ← Q[op] + lr × (reward − Q[op])`) is never
invoked by the orchestrator. -/
theorem c6_bandit_never_updated (d : ALNSData) (st : SolverState) (i : ℕ)
    (oscSol : TCand) (neighbors : List TCand) :
    (solveIteration d st i oscSol neighbors).gen = st.gen := by
  unfold solveIteration
  dsimp only
  set os := if 50 < i ∧ (150 < st.noImp ∨ i % 250 = 0) then
      performOscillation st oscSol
    else (st, false) with hos
  have hg1 : os.1.gen = st.gen := by
    rw [hos]
    split_ifs with h
    · exact performOscillation_gen st oscSol
    · rfl
  by_cases h2 : os.2 = true ∧ os.1.noImp = 0
  · rw [if_pos h2]; exact hg1
  · rw [if_neg h2]
    cases neighbors with
    | nil => exact hg1
    | cons n ns =>
        rw [updateTenure_gen, updateMoStrategy_gen, solveSelect_gen]
        exact hg1

/-- C5.  The look-ahead guard of the per-line simulation step: when the
assigned style `s0` differs from the line's current style `c0` and the
fabric inventory of `s0` is exhausted (≤ 1e-6), then (a) if the following
period's planned style differs from `s0`, the line is forced to keep `c0` —
the assignment cell is overwritten with `c0`, the line's current style stays
`c0`, no changeover is recorded for the line and no setup cost accrues; and
(b) if the following period keeps `s0`, the switch is allowed — the cell
stays `s0`, the changeover `(c0 → s0)` is recorded and the discounted setup
cost accrues. -/
theorem c5_lookahead_guard (d : ALNSData) (t t2 : ℤ) (c : Ctx) (pp : PP)
    (l s0 c0 : ℕ) (hcell : c.assign l t = some s0)
    (hcur : c.cur l = some c0) (hne : c0 ≠ s0)
    (hfab : c.invFab s0 ≤ eps6) :
    (c.assign l t2 ≠ some s0 →
      (lineStep d t (some t2) (c, pp) l).1.assign l t = some c0 ∧
      (lineStep d t (some t2) (c, pp) l).1.cur l = some c0 ∧
      (∀ o n, (lineStep d t (some t2) (c, pp) l).1.changesR l o n t
          = c.changesR l o n t) ∧
      (lineStep d t (some t2) (c, pp) l).1.setupC = c.setupC) ∧
    (c.assign l t2 = some s0 →
      (lineStep d t (some t2) (c, pp) l).1.assign l t = some s0 ∧
      (lineStep d t (some t2) (c, pp) l).1.cur l = some s0 ∧
      (lineStep d t (some t2) (c, pp) l).1.changesR l (some c0) s0 t = true ∧
      (lineStep d t (some t2) (c, pp) l).1.setupC
          = c.setupC + d.Csetup * discount d t) := by
  constructor
  · intro hnx
    have hdec : decideStyle d c t (some t2) l s0 = c0 := by
      simp [decideStyle, hcur, hne, hfab, hnx]
    refine ⟨?_, ?_, fun o n => ?_, ?_⟩ <;>
      simp [lineStep, hcell, hdec, hcur, hne, upd1, upd2]
  · intro hnx
    have hdec : decideStyle d c t (some t2) l s0 = s0 := by
      simp [decideStyle, hcur, hne, hfab, hnx]
    have hcs : c.cur l ≠ some s0 := by simp [hcur, hne]
    refine ⟨?_, ?_, ?_, ?_⟩
    · simp [lineStep, hcell, hdec, hcs, hcur, upd1, updCh]
    · simp [lineStep, hcell, hdec, hcs, hcur, upd1, updCh]
    · simp only [lineStep, hcell, hdec, hcur]
      rw [if_neg (by simpa using hne : ¬ (some c0 : Option ℕ) = some s0)]
      simp [updCh]
    · simp only [lineStep, hcell, hdec, hcur]
      rw [if_neg (by simpa using hne : ¬ (some c0 : Option ℕ) = some s0)]

/-- C5, witness: on `dataC2`'s initial context, line 0 (current style 1)
is scheduled for style 0 with exhausted fabric at period 1 while period 2
plans style 2, so the guard forces the cell back to style 1. -/
theorem c5_lookahead_guard_witness :
    (lineStep dataC2 1 (some 2) (mkCtx dataC2 aC2, fun _ => []) 0).1.assign 0 1
      = some 1 ∧
    (lineStep dataC2 1 (some 2) (mkCtx dataC2 aC2, fun _ => []) 0).1.cur 0
      = some 1 ∧
    (∀ o n,
      (lineStep dataC2 1 (some 2) (mkCtx dataC2 aC2, fun _ => []) 0).1.changesR
          0 o n 1
        = (mkCtx dataC2 aC2).changesR 0 o n 1) ∧
    (lineStep dataC2 1 (some 2) (mkCtx dataC2 aC2, fun _ => []) 0).1.setupC
      = (mkCtx dataC2 aC2).setupC :=
  (c5_lookahead_guard dataC2 1 2 (mkCtx dataC2 aC2) (fun _ => []) 0 0 1
      (by decide) (by decide) (by decide)
      (by norm_num [mkCtx, dataC2, eps6])).1 (by decide)

/-- If the admission walk rejects every candidate, then every candidate's
move signature is tabu and no candidate beats the best cost. -/
lemma admitWalk_none (d : ALNSData) (curA : Assignment) (bc : WithTop ℚ)
    (tabu : List (List SigEntry)) :
    ∀ l : List TCand, admitWalk d curA bc tabu l = none →
      ∀ n ∈ l, moveSignature d curA n.assignment ∈ tabu ∧ ¬ n.cost < bc := by
  intro l
  induction l with
  | nil => intro _ n hn; exact absurd hn (List.not_mem_nil n)
  | cons x rest ih =>
      intro hw n hn
      unfold admitWalk at hw
      by_cases hx : x.cost < bc ∨ moveSignature d curA x.assignment ∉ tabu
      · rw [if_pos hx] at hw
        exact absurd hw (by simp)
      · rw [if_neg hx] at hw
        rcases List.mem_cons.mp hn with h | h
        · subst h
          exact ⟨not_not.mp (fun hh => hx (Or.inr hh)),
                 fun hh => hx (Or.inl hh)⟩
        · exact ih hw n h

/-- An admitted candidate came from the walked list and passed the
admission test (aspiration or non-tabu). -/
lemma admitWalk_some (d : ALNSData) (curA : Assignment) (bc : WithTop ℚ)
    (tabu : List (List SigEntry)) :
    ∀ (l : List TCand) (n : TCand) (b : Bool),
      admitWalk d curA bc tabu l = some (n, b) →
      n ∈ l ∧ (n.cost < bc ∨ moveSignature d curA n.assignment ∉ tabu) := by
  intro l
  induction l with
  | nil => intro n b h; exact absurd h (by simp [admitWalk])
  | cons x rest ih =>
      intro n b h
      unfold admitWalk at h
      by_cases hx : x.cost < bc ∨ moveSignature d curA x.assignment ∉ tabu
      · rw [if_pos hx] at h
        have hpair := Option.some.inj h
        have hx1 : x = n := congrArg Prod.fst hpair
        subst hx1
        exact ⟨List.mem_cons_self x rest, hx⟩
      · rw [if_neg hx] at h
        rcases ih n b h with ⟨h1, h2⟩
        exact ⟨List.mem_cons_of_mem x h1, h2⟩

/-- C4.  In the neighborhood-selection block of `solve`, a candidate whose
move signature is in tabu memory becomes the new current solution only when
its cost is strictly below the best-ever cost (aspiration) — except in the
deadlock fallback: if the admitted current solution is tabu and
non-improving, then every candidate of the batch was tabu and
non-improving, and the admitted one has minimal cost among them. -/
theorem c4_tabu_admissibility (d : ALNSData) (st : SolverState)
    (nbrs : List TCand) (hne : nbrs ≠ [])
    (htabu : moveSignature d st.current.assignment
        (solveSelect d st nbrs).1.current.assignment ∈ st.tabu)
    (hcost : ¬ (solveSelect d st nbrs).1.current.cost < st.bestCost) :
    (∀ n ∈ nbrs, moveSignature d st.current.assignment n.assignment ∈ st.tabu
        ∧ ¬ n.cost < st.bestCost) ∧
    (∀ n ∈ nbrs, (solveSelect d st nbrs).1.current.cost ≤ n.cost) := by
  haveI htot : IsTotal TCand (fun a b : TCand => a.cost ≤ b.cost) :=
    ⟨fun a b => le_total a.cost b.cost⟩
  haveI htr : IsTrans TCand (fun a b : TCand => a.cost ≤ b.cost) :=
    ⟨fun a b c h1 h2 => le_trans h1 h2⟩
  have hperm := List.perm_insertionSort
    (fun a b : TCand => a.cost ≤ b.cost) nbrs
  have hsorted := List.sorted_insertionSort
    (fun a b : TCand => a.cost ≤ b.cost) nbrs
  cases hw : admitWalk d st.current.assignment st.bestCost st.tabu
      (List.insertionSort (fun a b : TCand => a.cost ≤ b.cost) nbrs) with
  | some nb =>
      have hcur : (solveSelect d st nbrs).1.current = nb.1 := by
        simp only [solveSelect]
        rw [hw]
      rcases admitWalk_some d st.current.assignment st.bestCost st.tabu _
          nb.1 nb.2 (by rw [hw]) with ⟨_, h2⟩
      rw [hcur] at htabu hcost
      rcases h2 with h2 | h2
      · exact absurd h2 hcost
      · exact absurd htabu h2
  | none =>
      cases hs : List.insertionSort (fun a b : TCand => a.cost ≤ b.cost) nbrs
        with
      | nil =>
          rw [hs] at hperm
          exact absurd (hperm.symm.eq_nil) hne
      | cons x rest =>
          have hall := admitWalk_none d st.current.assignment st.bestCost
            st.tabu _ hw
          have hcur : (solveSelect d st nbrs).1.current = x := by
            simp only [solveSelect]
            rw [hw, hs]
          constructor
          · intro n hn
            exact hall n ((hperm.symm.subset) hn)
          · intro n hn
            rw [hcur]
            have hn2 : n ∈ x :: rest := by
              rw [← hs]; exact (hperm.symm.subset) hn
            rcases List.mem_cons.mp hn2 with h | h
            · subst h; exact le_refl _
            · rw [hs] at hsorted
              exact (List.sorted_cons.mp hsorted).1 n h

/-- A neighbor candidate differing from the empty current assignment in the
single cell of `dataC1`'s grid, with a non-improving cost. -/
def nW : TCand where
  assignment := fun l t => if l = 0 ∧ t = 1 then some 0 else none
  cost := some 10
  isMoMove := false

/-- The signature of the move from `stC7`'s current solution to `nW`. -/
lemma c4w_sig :
    moveSignature dataC1 stC7.current.assignment nW.assignment
      = [(0, 1, none, some 0)] := by
  decide

/-- On the batch `[nW]`, the walk rejects the single tabu non-improving
candidate and the fallback admits it as current. -/
lemma c4w_select : (solveSelect dataC1 stC7 [nW]).1.current = nW := by
  have hlt : ¬ nW.cost < stC7.bestCost := by
    have hq : ¬ ((10 : ℚ) : WithTop ℚ) < ((10 : ℚ) : WithTop ℚ) :=
      lt_irrefl _
    exact hq
  have hmem : moveSignature dataC1 stC7.current.assignment nW.assignment
      ∈ stC7.tabu := by
    rw [c4w_sig]; decide
  have hsort : List.insertionSort (fun a b : TCand => a.cost ≤ b.cost) [nW]
      = [nW] := by
    simp [List.insertionSort]
  have hwalk : admitWalk dataC1 stC7.current.assignment stC7.bestCost
      stC7.tabu [nW] = none := by
    unfold admitWalk
    rw [if_neg (fun h => h.elim hlt (fun hb => hb hmem))]
    rfl
  simp only [solveSelect, hsort, hwalk]

/-- C4, witness: with the single tabu, non-improving candidate `nW` the
fallback fires, and the conclusion of `c4_tabu_admissibility` holds at this
concrete input. -/
theorem c4_tabu_admissibility_witness :
    ([nW] : List TCand) ≠ [] ∧
    ((∀ n ∈ [nW],
        moveSignature dataC1 stC7.current.assignment n.assignment ∈ stC7.tabu
          ∧ ¬ n.cost < stC7.bestCost) ∧
      (∀ n ∈ [nW], (solveSelect dataC1 stC7 [nW]).1.current.cost ≤ n.cost)) :=
  ⟨by simp,
    c4_tabu_admissibility dataC1 stC7 [nW] (by simp)
      (by
        rw [c4w_select, c4w_sig]
        decide)
      (by
        rw [c4w_select]
        have hq : ¬ ((10 : ℚ) : WithTop ℚ) < ((10 : ℚ) : WithTop ℚ) :=
          lt_irrefl _
        exact hq)⟩

/-- Fabric receipt does not touch the assignment grid. -/
lemma fabricStep_assign (d : ALNSData) (t : ℤ) (c : Ctx) (s : ℕ) :
    (fabricStep d t c s).assign = c.assign := rfl

/-- Distributing shares does not touch the assignment grid. -/
lemma applyShares_assign (t : ℤ) (s : ℕ) (actual total : ℚ) :
    ∀ (items : List (ℕ × ℚ)) (c : Ctx),
      (applyShares t s actual total c items).assign = c.assign := by
  intro items
  induction items with
  | nil => intro c; rfl
  | cons i rest ih =>
      intro c
      unfold applyShares
      rw [List.foldl_cons]
      have := ih
      unfold applyShares at this
      rw [this]
      dsimp only
      split_ifs <;> rfl

/-- Capacity realization does not touch the assignment grid. -/
lemma realizeStep_assign (d : ALNSData) (t : ℤ) (pp : PP) (c : Ctx) (s : ℕ) :
    (realizeStep d t pp c s).assign = c.assign := by
  unfold realizeStep
  cases pp s with
  | nil => rfl
  | cons i rest =>
      dsimp only
      split_ifs
      · rw [applyShares_assign]
      · rfl

/-- Shipment does not touch the assignment grid. -/
lemma shipStep_assign (d : ALNSData) (t : ℤ) (c : Ctx) (s : ℕ) :
    (shipStep d t c s).assign = c.assign := rfl

/-- A fold of an assignment-preserving step preserves the assignment. -/
lemma foldl_assign_invariant {β : Type} (f : Ctx → β → Ctx)
    (hf : ∀ c b, (f c b).assign = c.assign) :
    ∀ (xs : List β) (c : Ctx), (xs.foldl f c).assign = c.assign := by
  intro xs
  induction xs with
  | nil => intro c; rfl
  | cons x rest ih =>
      intro c
      rw [List.foldl_cons, ih, hf]

/-- The per-line step never writes into the cells of a line whose cells are
all unassigned (`None`): its own step skips, other lines write only their
own cells. -/
lemma lineStep_assign_none (d : ALNSData) (t : ℤ) (nx : Option ℤ)
    (acc : Ctx × PP) (l' l : ℕ)
    (h : ∀ t', acc.1.assign l t' = none) :
    ∀ t', (lineStep d t nx acc l').1.assign l t' = none := by
  intro t'
  cases hc : acc.1.assign l' t with
  | none =>
      simp only [lineStep, hc]
      exact h t'
  | some s0 =>
      simp only [lineStep, hc]
      by_cases hs : decideStyle d acc.1 t nx l' s0 = s0
      · simp only [if_pos hs]
        exact h t'
      · simp only [if_neg hs, upd2]
        by_cases hk : l = l' ∧ t' = t
        · exfalso
          rcases hk with ⟨h1, h2⟩
          rw [← h1] at hc
          rw [h t] at hc
          exact Option.noConfusion hc
        · simp only [if_neg hk]
          exact h t'

/-- The per-line fold preserves all-`None` lines. -/
lemma foldl_lineStep_assign_none (d : ALNSData) (t : ℤ) (nx : Option ℤ)
    (l : ℕ) :
    ∀ (ls : List ℕ) (acc : Ctx × PP),
      (∀ t', acc.1.assign l t' = none) →
      ∀ t', (ls.foldl (lineStep d t nx) acc).1.assign l t' = none := by
  intro ls
  induction ls with
  | nil => intro acc h t'; exact h t'
  | cons x rest ih =>
      intro acc h t'
      rw [List.foldl_cons]
      exact ih (lineStep d t nx acc x)
        (fun u => lineStep_assign_none d t nx acc x l h u) t'

/-- One full simulation period preserves all-`None` lines. -/
lemma periodStep_assign_none (d : ALNSData) (t : ℤ) (nx : Option ℤ)
    (c : Ctx) (l : ℕ) (h : ∀ t', c.assign l t' = none) :
    ∀ t', (periodStep d t nx c).assign l t' = none := by
  intro t'
  unfold periodStep
  dsimp only
  rw [foldl_assign_invariant (shipStep d t) (shipStep_assign d t)]
  rw [foldl_assign_invariant _ (fun c s => realizeStep_assign d t _ c s)]
  refine foldl_lineStep_assign_none d t nx l d.lines _ ?_ t'
  intro u
  rw [foldl_assign_invariant (fabricStep d t) (fabricStep_assign d t)]
  exact h u

/-- The whole simulation loop preserves all-`None` lines. -/
lemma simLoop_assign_none (d : ALNSData) (cutoff : WithTop ℚ) (l : ℕ) :
    ∀ (ts : List ℤ) (c : Ctx), (∀ t', c.assign l t' = none) →
      ∀ t', (simLoop d cutoff c ts).1.assign l t' = none := by
  intro ts
  induction ts with
  | nil => intro c h t'; exact h t'
  | cons t rest ih =>
      intro c h t'
      unfold simLoop
      split_ifs with hcut
      · exact h t'
      · exact ih (periodStep d t rest.head? c)
          (periodStep_assign_none d t rest.head? c l h) t'

/-- C3, amended.  `TabuSearchSolver.__init__` never raises on a line with
no capability-enabled style: it always completes, its warning list contains
exactly the lines of the instance whose allowed-style set is empty, and in
the initial solution every cell of such a line is left without a style
(`None`), which the simulation skips. -/
theorem c3_amended (d : ALNSData) (pick : ℕ → ℕ) :
    (∀ l, l ∈ (tabuSolverInit d pick).warnings ↔
        (l ∈ d.lines ∧ d.allowed l = [])) ∧
    (∀ l, l ∈ d.lines → d.allowed l = [] →
      ∀ t, (tabuSolverInit d pick).current.assignment l t = none) := by
  constructor
  · intro l
    simp [tabuSolverInit, capWarnings]
  · intro l _ hempty t
    show (init_solution d pick).assignment l t = none
    unfold init_solution repair_and_evaluate
    dsimp only
    show (simLoop d ⊤ (mkCtx d _) d.sortedTimes).1.assign l t = none
    refine simLoop_assign_none d ⊤ l d.sortedTimes _ ?_ t
    intro t'
    show repairA d pick
        (fun l t => if l ∈ d.lines ∧ t ∈ d.sortedTimes then
          initStyleFor d pick l else none) l t' = none
    have hinit : initStyleFor d pick l = none := by
      unfold initStyleFor
      rw [hempty]
      unfold argmaxBy randAllowed
      rw [if_pos hempty]
    by_cases hg : l ∈ d.lines ∧ t' ∈ d.sortedTimes
    · simp [repairA, repairCell, randAllowed, hg, hinit, hempty]
    · simp [repairA, hg]

/-- C3, witness: the characterization instantiated on `dataC3` — line 0 is
warned about and its cell stays unassigned. -/
theorem c3_amended_witness :
    (0 ∈ (tabuSolverInit dataC3 pick0).warnings ↔
      (0 ∈ dataC3.lines ∧ dataC3.allowed 0 = [])) ∧
    (tabuSolverInit dataC3 pick0).current.assignment 0 1 = none :=
  ⟨(c3_amended dataC3 pick0).1 0,
    (c3_amended dataC3 pick0).2 0 (by decide) (by decide) 1⟩

/-- Every grid cell of the assignment holds a capability-enabled style. -/
def cellsOK (d : ALNSData) (a : Assignment) : Prop :=
  ∀ l ∈ d.lines, ∀ t ∈ d.sortedTimes, ∃ s, a l t = some s ∧ s ∈ d.allowed l

/-- Every line's current style, when present, is capability-enabled. -/
def curOK (d : ALNSData) (cu : ℕ → Option ℕ) : Prop :=
  ∀ l ∈ d.lines, ∀ s, cu l = some s → s ∈ d.allowed l

/-- The look-ahead decision returns either the scheduled style or the
line's current style. -/
lemma decideStyle_cases (d : ALNSData) (c : Ctx) (t : ℤ) (nx : Option ℤ)
    (l s0 : ℕ) :
    decideStyle d c t nx l s0 = s0 ∨
    c.cur l = some (decideStyle d c t nx l s0) := by
  unfold decideStyle
  cases hc : c.cur l with
  | none => exact Or.inl rfl
  | some c0 =>
      dsimp only
      by_cases h1 : c0 = s0
      · rw [if_pos h1]; exact Or.inl rfl
      · rw [if_neg h1]
        by_cases h2 : c.invFab s0 ≤ eps6
        · rw [if_pos h2]
          cases nx with
          | some t2 =>
              dsimp only
              by_cases h3 : c.assign l t2 = some s0
              · rw [if_pos h3]
                exact Or.inl rfl
              · rw [if_neg h3]
                exact Or.inr rfl
          | none => exact Or.inr rfl
        · rw [if_neg h2]; exact Or.inl rfl

/-- Distributing shares does not touch the per-line current styles. -/
lemma applyShares_cur (t : ℤ) (s : ℕ) (actual total : ℚ) :
    ∀ (items : List (ℕ × ℚ)) (c : Ctx),
      (applyShares t s actual total c items).cur = c.cur := by
  intro items
  induction items with
  | nil => intro c; rfl
  | cons i rest ih =>
      intro c
      unfold applyShares
      rw [List.foldl_cons]
      have := ih
      unfold applyShares at this
      rw [this]
      dsimp only
      split_ifs <;> rfl

/-- Capacity realization does not touch the per-line current styles. -/
lemma realizeStep_cur (d : ALNSData) (t : ℤ) (pp : PP) (c : Ctx) (s : ℕ) :
    (realizeStep d t pp c s).cur = c.cur := by
  unfold realizeStep
  cases pp s with
  | nil => rfl
  | cons i rest =>
      dsimp only
      split_ifs
      · rw [applyShares_cur]
      · rfl

/-- A fold of a step preserving the current-style map preserves it. -/
lemma foldl_cur_invariant {β : Type} (f : Ctx → β → Ctx)
    (hf : ∀ c b, (f c b).cur = c.cur) :
    ∀ (xs : List β) (c : Ctx), (xs.foldl f c).cur = c.cur := by
  intro xs
  induction xs with
  | nil => intro c; rfl
  | cons x rest ih =>
      intro c
      rw [List.foldl_cons, ih, hf]

/-- One per-line step preserves the capability invariants (the processed
line belongs to the instance and the period is in the horizon). -/
lemma lineStep_ok (d : ALNSData) (t : ℤ) (nx : Option ℤ) (acc : Ctx × PP)
    (l' : ℕ) (hl' : l' ∈ d.lines) (ht : t ∈ d.sortedTimes)
    (ha : cellsOK d acc.1.assign) (hc : curOK d acc.1.cur) :
    cellsOK d (lineStep d t nx acc l').1.assign ∧
    curOK d (lineStep d t nx acc l').1.cur := by
  cases hcell : acc.1.assign l' t with
  | none =>
      simp only [lineStep, hcell]
      exact ⟨ha, hc⟩
  | some s0 =>
      have hsA : decideStyle d acc.1 t nx l' s0 ∈ d.allowed l' := by
        rcases decideStyle_cases d acc.1 t nx l' s0 with h | h
        · rw [h]
          rcases ha l' hl' t ht with ⟨u, hu1, hu2⟩
          rw [hcell] at hu1
          have hsu : s0 = u := Option.some.inj hu1
          rw [← hsu] at hu2
          exact hu2
        · exact hc l' hl' _ h
      simp only [lineStep, hcell]
      constructor
      · intro l hl u hu
        by_cases hss : decideStyle d acc.1 t nx l' s0 = s0
        · simp only [if_pos hss]
          exact ha l hl u hu
        · simp only [if_neg hss, upd2]
          by_cases hk : l = l' ∧ u = t
          · refine ⟨decideStyle d acc.1 t nx l' s0, ?_, ?_⟩
            · rw [if_pos hk]
            · rw [hk.1]; exact hsA
          · rw [if_neg hk]
            exact ha l hl u hu
      · intro l hl u hu
        by_cases hk : l = l'
        · rw [upd1] at hu
          rw [if_pos hk] at hu
          have : decideStyle d acc.1 t nx l' s0 = u := by injection hu
          rw [← this, hk]
          exact hsA
        · rw [upd1] at hu
          rw [if_neg hk] at hu
          exact hc l hl u hu

/-- The per-line fold preserves the capability invariants. -/
lemma foldl_lineStep_ok (d : ALNSData) (t : ℤ) (nx : Option ℤ)
    (ht : t ∈ d.sortedTimes) :
    ∀ (ls : List ℕ), (∀ x ∈ ls, x ∈ d.lines) → ∀ acc : Ctx × PP,
      cellsOK d acc.1.assign → curOK d acc.1.cur →
      cellsOK d ((ls.foldl (lineStep d t nx) acc).1).assign ∧
      curOK d ((ls.foldl (lineStep d t nx) acc).1).cur := by
  intro ls
  induction ls with
  | nil => intro _ acc ha hc; exact ⟨ha, hc⟩
  | cons x rest ih =>
      intro hsub acc ha hc
      rw [List.foldl_cons]
      rcases lineStep_ok d t nx acc x (hsub x (List.mem_cons_self x rest)) ht
          ha hc with ⟨ha2, hc2⟩
      exact ih (fun y hy => hsub y (List.mem_cons_of_mem x hy)) _ ha2 hc2

/-- One simulation period preserves the capability invariants. -/
lemma periodStep_ok (d : ALNSData) (t : ℤ) (nx : Option ℤ) (c : Ctx)
    (ht : t ∈ d.sortedTimes) (ha : cellsOK d c.assign) (hc : curOK d c.cur) :
    cellsOK d (periodStep d t nx c).assign ∧
    curOK d (periodStep d t nx c).cur := by
  unfold periodStep
  dsimp only
  rw [foldl_assign_invariant (shipStep d t) (shipStep_assign d t),
    foldl_cur_invariant (shipStep d t) (fun c s => rfl),
    foldl_assign_invariant _ (fun c s => realizeStep_assign d t _ c s),
    foldl_cur_invariant _ (fun c s => realizeStep_cur d t _ c s)]
  refine foldl_lineStep_ok d t nx ht d.lines (fun x hx => hx) _ ?_ ?_
  · rw [foldl_assign_invariant (fabricStep d t) (fabricStep_assign d t)]
    exact ha
  · rw [foldl_cur_invariant (fabricStep d t) (fun c s => rfl)]
    exact hc

/-- The simulation loop preserves the capability invariants (also through
a fast-fail abort, which returns the current context unchanged). -/
lemma simLoop_ok (d : ALNSData) (cutoff : WithTop ℚ) :
    ∀ (ts : List ℤ), (∀ u ∈ ts, u ∈ d.sortedTimes) → ∀ c : Ctx,
      cellsOK d c.assign → curOK d c.cur →
      cellsOK d (simLoop d cutoff c ts).1.assign := by
  intro ts
  induction ts with
  | nil => intro _ c ha _; exact ha
  | cons t rest ih =>
      intro hsub c ha hc
      unfold simLoop
      split_ifs with hcut
      · exact ha
      · rcases periodStep_ok d t rest.head? c
            (hsub t (List.mem_cons_self t rest)) ha hc with ⟨ha2, hc2⟩
        exact ih (fun u hu => hsub u (List.mem_cons_of_mem t hu)) _ ha2 hc2

/-- The repair pass makes every grid cell capability-enabled, given
non-empty allowed sets and a valid random choice function. -/
lemma repairA_cellsOK (d : ALNSData) (pick : ℕ → ℕ) (a : Assignment)
    (hall : ∀ l ∈ d.lines, d.allowed l ≠ [])
    (hpick : ∀ l ∈ d.lines, pick l ∈ d.allowed l) :
    cellsOK d (repairA d pick a) := by
  intro l hl t ht
  unfold repairA
  rw [if_pos ⟨hl, ht⟩]
  unfold repairCell
  cases hc : a l t with
  | none =>
      refine ⟨pick l, ?_, hpick l hl⟩
      unfold randAllowed
      rw [if_neg (hall l hl)]
  | some s =>
      dsimp only
      by_cases hb : allowedB d l s = true
      · rw [if_pos hb]
        refine ⟨s, rfl, ?_⟩
        have hb2 := hb
        unfold allowedB at hb2
        simpa using hb2
      · rw [if_neg hb]
        refine ⟨pick l, ?_, hpick l hl⟩
        unfold randAllowed
        rw [if_neg (hall l hl)]

/-- C2, amended.  On an instance where every line's allowed-style set is
non-empty, where the random repair choice is valid, and where additionally
every line's initial `paramY0` style is either absent or capability-enabled
(the hypothesis the counterexample `c2_counterexample` violates), every
grid cell of the assignment returned by `repair_and_evaluate` holds a
capability-enabled style — for any input assignment and any pruning
ceiling. -/
theorem c2_amended (d : ALNSData) (pick : ℕ → ℕ) (cutoff : WithTop ℚ)
    (a : Assignment)
    (hall : ∀ l ∈ d.lines, d.allowed l ≠ [])
    (hpick : ∀ l ∈ d.lines, pick l ∈ d.allowed l)
    (hy0 : ∀ l ∈ d.lines, ∀ s, initialStyleId d l = some s →
      s ∈ d.allowed l) :
    ∀ l ∈ d.lines, ∀ t ∈ d.sortedTimes,
      ∃ s, (repair_and_evaluate d pick cutoff a).assignment l t = some s ∧
        s ∈ d.allowed l := by
  intro l hl t ht
  unfold repair_and_evaluate
  dsimp only
  show ∃ s, (simLoop d cutoff (mkCtx d (repairA d pick a))
      d.sortedTimes).1.assign l t = some s ∧ s ∈ d.allowed l
  refine simLoop_ok d cutoff d.sortedTimes (fun u hu => hu)
      (mkCtx d (repairA d pick a)) ?_ ?_ l hl t ht
  · exact repairA_cellsOK d pick a hall hpick
  · intro l2 hl2 s hs
    exact hy0 l2 hl2 s hs

/-- C2, witness: on `dataC1` (allowed `{0,1}`, initial style 1 allowed)
the returned cell of the single-period grid is capability-enabled. -/
theorem c2_amended_witness :
    ∃ s, (repair_and_evaluate dataC1 pick0 ⊤ aC1).assignment 0 1 = some s ∧
      s ∈ dataC1.allowed 0 :=
  c2_amended dataC1 pick0 ⊤ aC1
    (by intro l hl; fin_cases hl; decide)
    (by intro l hl; fin_cases hl; decide)
    (by
      intro l hl s hs
      fin_cases hl
      rw [show initialStyleId dataC1 0 = some 1 from by decide] at hs
      have : (1 : ℕ) = s := by injection hs
      rw [← this]
      decide)
    0 (by decide) 1 (by decide)

/-- Linear interpolation with a non-negative slope is monotone in the
evaluation point. -/
lemma lerp_mono (x1 x2 y1 y2 e1 e2 : ℚ) (hx : x1 < x2) (hy : y1 ≤ y2)
    (he : e1 ≤ e2) :
    y1 + (y2 - y1) * (e1 - x1) / (x2 - x1)
      ≤ y1 + (y2 - y1) * (e2 - x1) / (x2 - x1) := by
  have hpos : (0 : ℚ) < x2 - x1 := sub_pos.mpr hx
  refine add_le_add_left ?_ y1
  refine (div_le_div_iff_of_pos_right hpos).mpr ?_
  exact mul_le_mul_of_nonneg_left (sub_le_sub_right he x1) (sub_nonneg.mpr hy)

/-- Interpolation at or after the left endpoint is at least the left
value. -/
lemma lerp_ge_left (x1 x2 y1 y2 e : ℚ) (hx : x1 < x2) (hy : y1 ≤ y2)
    (he : x1 ≤ e) :
    y1 ≤ y1 + (y2 - y1) * (e - x1) / (x2 - x1) := by
  have h := lerp_mono x1 x2 y1 y2 x1 e hx hy he
  simpa using h

/-- Interpolation at or before the right endpoint is at most the right
value. -/
lemma lerp_le_right (x1 x2 y1 y2 e : ℚ) (hx : x1 < x2) (hy : y1 ≤ y2)
    (he : e ≤ x2) :
    y1 + (y2 - y1) * (e - x1) / (x2 - x1) ≤ y2 := by
  have h := lerp_mono x1 x2 y1 y2 e x2 hx hy he
  have hne : x2 - x1 ≠ 0 := ne_of_gt (sub_pos.mpr hx)
  calc y1 + (y2 - y1) * (e - x1) / (x2 - x1)
      ≤ y1 + (y2 - y1) * (x2 - x1) / (x2 - x1) := h
    _ = y2 := by field_simp

/-- The scan value is at least the first breakpoint's value (for a curve
with strictly increasing x and non-decreasing values). -/
lemma interpScan_ge_head :
    ∀ (rest : List (ℚ × ℚ)) (p : ℚ × ℚ) (e : ℚ),
      List.Chain' (fun a b : ℚ × ℚ => a.1 < b.1) (p :: rest) →
      List.Chain' (fun a b : ℚ × ℚ => a.2 ≤ b.2) (p :: rest) →
      p.2 ≤ interpScan e (p :: rest) := by
  intro rest
  induction rest with
  | nil => intro p e _ _; simp [interpScan]
  | cons q rest2 ih =>
      intro p e hx hy
      simp only [interpScan]
      have hx1 := (List.chain'_cons.mp hx).1
      have hy1 := (List.chain'_cons.mp hy).1
      split_ifs with hbr
      · exact lerp_ge_left p.1 q.1 p.2 q.2 e hx1 hy1 hbr.1
      · exact le_trans hy1
          (ih q e (List.chain'_cons.mp hx).2 (List.chain'_cons.mp hy).2)

/-- Along a value-monotone curve, the first value is at most the last. -/
lemma chainY_head_le_last :
    ∀ (rest : List (ℚ × ℚ)) (p : ℚ × ℚ),
      List.Chain' (fun a b : ℚ × ℚ => a.2 ≤ b.2) (p :: rest) →
      p.2 ≤ ((p :: rest).getLast (by simp)).2 := by
  intro rest
  induction rest with
  | nil => intro p _; simp
  | cons q rest2 ih =>
      intro p hy
      have hy1 := (List.chain'_cons.mp hy).1
      have h2 := ih q (List.chain'_cons.mp hy).2
      rw [List.getLast_cons (by simp : q :: rest2 ≠ [])]
      exact le_trans hy1 h2

/-- Along an x-increasing curve with at least two points, the first x is
strictly below the last x. -/
lemma chainX_head_lt_last :
    ∀ (rest : List (ℚ × ℚ)) (p : ℚ × ℚ), rest ≠ [] →
      List.Chain' (fun a b : ℚ × ℚ => a.1 < b.1) (p :: rest) →
      p.1 < ((p :: rest).getLast (by simp)).1 := by
  intro rest
  induction rest with
  | nil => intro p h _; exact absurd rfl h
  | cons q rest2 ih =>
      intro p _ hx
      have hx1 := (List.chain'_cons.mp hx).1
      rw [List.getLast_cons (by simp : q :: rest2 ≠ [])]
      cases rest2 with
      | nil => simpa using hx1
      | cons r rest3 =>
          exact lt_trans hx1 (ih q (by simp) (List.chain'_cons.mp hx).2)

/-- The scan value is at most the last breakpoint's value. -/
lemma interpScan_le_last :
    ∀ (rest : List (ℚ × ℚ)) (p : ℚ × ℚ) (e : ℚ),
      List.Chain' (fun a b : ℚ × ℚ => a.1 < b.1) (p :: rest) →
      List.Chain' (fun a b : ℚ × ℚ => a.2 ≤ b.2) (p :: rest) →
      interpScan e (p :: rest) ≤ ((p :: rest).getLast (by simp)).2 := by
  intro rest
  induction rest with
  | nil => intro p e _ _; simp [interpScan]
  | cons q rest2 ih =>
      intro p e hx hy
      simp only [interpScan]
      have hx1 := (List.chain'_cons.mp hx).1
      have hy1 := (List.chain'_cons.mp hy).1
      rw [List.getLast_cons (by simp : q :: rest2 ≠ [])]
      split_ifs with hbr
      · exact le_trans (lerp_le_right p.1 q.1 p.2 q.2 e hx1 hy1 hbr.2)
          (chainY_head_le_last rest2 q (List.chain'_cons.mp hy).2)
      · exact ih q e (List.chain'_cons.mp hx).2 (List.chain'_cons.mp hy).2

/-- For evaluation points strictly beyond the first x, the scan is
monotone. -/
lemma interpScan_mono :
    ∀ (rest : List (ℚ × ℚ)) (p : ℚ × ℚ) (e1 e2 : ℚ),
      List.Chain' (fun a b : ℚ × ℚ => a.1 < b.1) (p :: rest) →
      List.Chain' (fun a b : ℚ × ℚ => a.2 ≤ b.2) (p :: rest) →
      p.1 < e1 → e1 ≤ e2 →
      interpScan e1 (p :: rest) ≤ interpScan e2 (p :: rest) := by
  intro rest
  induction rest with
  | nil => intro p e1 e2 _ _ _ _; simp [interpScan]
  | cons q rest2 ih =>
      intro p e1 e2 hx hy he1 he
      have hx1 := (List.chain'_cons.mp hx).1
      have hy1 := (List.chain'_cons.mp hy).1
      have hxt := (List.chain'_cons.mp hx).2
      have hyt := (List.chain'_cons.mp hy).2
      simp only [interpScan]
      by_cases hb1 : p.1 ≤ e1 ∧ e1 ≤ q.1
      · rw [if_pos hb1]
        by_cases hb2 : p.1 ≤ e2 ∧ e2 ≤ q.1
        · rw [if_pos hb2]
          exact lerp_mono p.1 q.1 p.2 q.2 e1 e2 hx1 hy1 he
        · rw [if_neg hb2]
          exact le_trans (lerp_le_right p.1 q.1 p.2 q.2 e1 hx1 hy1 hb1.2)
            (interpScan_ge_head rest2 q e2 hxt hyt)
      · rw [if_neg hb1]
        have hq1 : q.1 < e1 := by
          by_contra hcon
          exact hb1 ⟨le_of_lt he1, not_lt.mp hcon⟩
        have hb2 : ¬ (p.1 ≤ e2 ∧ e2 ≤ q.1) := by
          intro hcon
          exact absurd hcon.2 (not_le.mpr (lt_of_lt_of_le hq1 he))
        rw [if_neg hb2]
        exact ih q e1 e2 hxt hyt hq1 he

/-- Unfolding equation for `get_efficiency` on a non-empty curve. -/
lemma getEff_eq (d : ALNSData) (p : ℚ × ℚ) (rest : List (ℚ × ℚ))
    (hcurve : d.curve = p :: rest) (e : ℚ) :
    get_efficiency d e =
      if e ≤ p.1 then p.2
      else if ((p :: rest).getLast (by simp)).1 ≤ e then
        ((p :: rest).getLast (by simp)).2
      else interpScan e (p :: rest) := by
  unfold get_efficiency
  rw [hcurve]

/-- C9, amended.  For a learning curve with strictly increasing breakpoint
x-values AND non-decreasing efficiency values, `get_efficiency` is
non-decreasing in experience; for every experience input its value lies
between two breakpoint values (hence within the min/max of the breakpoint
values); and it clamps to the first breakpoint's value at or below the
first x and to the last breakpoint's value at or above the last x. -/
theorem c9_amended (d : ALNSData) (p : ℚ × ℚ) (rest : List (ℚ × ℚ))
    (hcurve : d.curve = p :: rest)
    (hx : List.Chain' (fun a b : ℚ × ℚ => a.1 < b.1) (p :: rest))
    (hy : List.Chain' (fun a b : ℚ × ℚ => a.2 ≤ b.2) (p :: rest)) :
    (∀ e1 e2 : ℚ, e1 ≤ e2 → get_efficiency d e1 ≤ get_efficiency d e2) ∧
    (∀ e : ℚ, (∃ q ∈ d.curve, q.2 ≤ get_efficiency d e) ∧
      (∃ q ∈ d.curve, get_efficiency d e ≤ q.2)) ∧
    (∀ e : ℚ, e ≤ p.1 → get_efficiency d e = p.2) ∧
    (∀ e : ℚ, ((p :: rest).getLast (by simp)).1 ≤ e →
      get_efficiency d e = ((p :: rest).getLast (by simp)).2) := by
  have hmemp : p ∈ d.curve := by rw [hcurve]; exact List.mem_cons_self p rest
  have hmemlast : (p :: rest).getLast (by simp) ∈ d.curve := by
    rw [hcurve]; exact List.getLast_mem (by simp)
  have hheadlast : p.2 ≤ ((p :: rest).getLast (by simp)).2 :=
    chainY_head_le_last rest p hy
  refine ⟨?_, ?_, ?_, ?_⟩
  · intro e1 e2 he
    rw [getEff_eq d p rest hcurve e1, getEff_eq d p rest hcurve e2]
    by_cases h1 : e1 ≤ p.1
    · rw [if_pos h1]
      by_cases h2 : e2 ≤ p.1
      · rw [if_pos h2]
      · rw [if_neg h2]
        by_cases h3 : ((p :: rest).getLast (by simp)).1 ≤ e2
        · rw [if_pos h3]
          exact hheadlast
        · rw [if_neg h3]
          exact interpScan_ge_head rest p e2 hx hy
    · rw [if_neg h1]
      have h1' : p.1 < e1 := not_le.mp h1
      have h2 : ¬ e2 ≤ p.1 := not_le.mpr (lt_of_lt_of_le h1' he)
      rw [if_neg h2]
      by_cases h3 : ((p :: rest).getLast (by simp)).1 ≤ e1
      · rw [if_pos h3, if_pos (le_trans h3 he)]
      · rw [if_neg h3]
        by_cases h4 : ((p :: rest).getLast (by simp)).1 ≤ e2
        · rw [if_pos h4]
          exact interpScan_le_last rest p e1 hx hy
        · rw [if_neg h4]
          exact interpScan_mono rest p e1 e2 hx hy h1' he
  · intro e
    rw [getEff_eq d p rest hcurve e]
    split_ifs with h1 h2
    · exact ⟨⟨p, hmemp, le_refl _⟩, ⟨p, hmemp, le_refl _⟩⟩
    · exact ⟨⟨(p :: rest).getLast (by simp), hmemlast, le_refl _⟩,
        ⟨(p :: rest).getLast (by simp), hmemlast, le_refl _⟩⟩
    · exact ⟨⟨p, hmemp, interpScan_ge_head rest p e hx hy⟩,
        ⟨(p :: rest).getLast (by simp), hmemlast,
          interpScan_le_last rest p e hx hy⟩⟩
  · intro e he
    rw [getEff_eq d p rest hcurve e, if_pos he]
  · intro e he
    rw [getEff_eq d p rest hcurve e]
    by_cases h1 : e ≤ p.1
    · rw [if_pos h1]
      cases hr : rest with
      | nil =>
          subst hr
          simp
      | cons q rest2 =>
          exfalso
          have hlt : p.1 < ((p :: rest).getLast (by simp)).1 :=
            chainX_head_lt_last rest p (by rw [hr]; simp) hx
          exact absurd (le_trans he h1) (not_le.mpr hlt)
    · rw [if_neg h1, if_pos he]

/-- C9, witness: the amended conjunction instantiated on `dataC1`'s
default learning curve `[(0, 1/2), (100, 1)]`, with the monotonicity
conjunct evaluated at 0 ≤ 100. -/
theorem c9_amended_witness :
    dataC1.curve = [(0, 1 / 2), (100, 1)] ∧
    get_efficiency dataC1 0 ≤ get_efficiency dataC1 100 ∧
    get_efficiency dataC1 (-5) = (1 / 2 : ℚ) ∧
    get_efficiency dataC1 200 = 1 := by
  have h := c9_amended dataC1 (0, 1 / 2) [(100, 1)] rfl
    (by norm_num) (by norm_num)
  refine ⟨rfl, h.1 0 100 (by norm_num), ?_, ?_⟩
  · have h3 := h.2.2.1 (-5) (by norm_num)
    simpa using h3
  · have h4 := h.2.2.2 200 (by norm_num)
    simpa using h4

/-- A per-line step never modifies the fabric inventory. -/
lemma lineStep_invFab (d : ALNSData) (t : ℤ) (nx : Option ℤ)
    (acc : Ctx × PP) (l' : ℕ) :
    (lineStep d t nx acc l').1.invFab = acc.1.invFab := by
  cases h : acc.1.assign l' t <;> simp [lineStep, h]

/-- A per-line step touches no other line's cells or current style. -/
lemma lineStep_frame_other (d : ALNSData) (t : ℤ) (nx : Option ℤ)
    (acc : Ctx × PP) (l' l : ℕ) (hne : l ≠ l') :
    (∀ u, (lineStep d t nx acc l').1.assign l u = acc.1.assign l u) ∧
    (lineStep d t nx acc l').1.cur l = acc.1.cur l := by
  cases h : acc.1.assign l' t with
  | none => simp [lineStep, h]
  | some s0 =>
      constructor
      · intro u
        simp only [lineStep, h]
        by_cases hs : decideStyle d acc.1 t nx l' s0 = s0
        · rw [if_pos hs]
        · rw [if_neg hs]
          show upd2 acc.1.assign l' t _ l u = acc.1.assign l u
          unfold upd2
          rw [if_neg (fun hk => hne hk.1)]
      · simp only [lineStep, h]
        show upd1 acc.1.cur l' _ l = acc.1.cur l
        unfold upd1
        rw [if_neg hne]

/-- A per-line step writes its own line only at the processed period. -/
lemma lineStep_frame_time (d : ALNSData) (t : ℤ) (nx : Option ℤ)
    (acc : Ctx × PP) (l' l : ℕ) (u : ℤ) (hu : u ≠ t) :
    (lineStep d t nx acc l').1.assign l u = acc.1.assign l u := by
  cases h : acc.1.assign l' t with
  | none => simp [lineStep, h]
  | some s0 =>
      simp only [lineStep, h]
      by_cases hs : decideStyle d acc.1 t nx l' s0 = s0
      · rw [if_pos hs]
      · rw [if_neg hs]
        show upd2 acc.1.assign l' t _ l u = acc.1.assign l u
        unfold upd2
        rw [if_neg (fun hk => hu hk.2)]

/-- The value the per-line step leaves in the line's own cell of the
processed period, as a function of the pre-step context. -/
def postCell (d : ALNSData) (t : ℤ) (nx : Option ℤ) (c : Ctx) (l : ℕ) :
    Option ℕ :=
  match c.assign l t with
  | none => none
  | some s0 => some (decideStyle d c t nx l s0)

/-- The line's current style after its step, as a function of the pre-step
context. -/
def postCur (d : ALNSData) (t : ℤ) (nx : Option ℤ) (c : Ctx) (l : ℕ) :
    Option ℕ :=
  match c.assign l t with
  | none => c.cur l
  | some s0 => some (decideStyle d c t nx l s0)

/-- The per-line step realizes `postCell`/`postCur` on its own line. -/
lemma lineStep_self (d : ALNSData) (t : ℤ) (nx : Option ℤ) (acc : Ctx × PP)
    (l : ℕ) :
    (lineStep d t nx acc l).1.assign l t = postCell d t nx acc.1 l ∧
    (lineStep d t nx acc l).1.cur l = postCur d t nx acc.1 l := by
  cases h : acc.1.assign l t with
  | none => simp [lineStep, postCell, postCur, h]
  | some s0 =>
      constructor
      · simp only [lineStep, postCell, h]
        by_cases hs : decideStyle d acc.1 t nx l s0 = s0
        · rw [if_pos hs, h, hs]
        · rw [if_neg hs]
          show upd2 acc.1.assign l t _ l t = _
          unfold upd2
          rw [if_pos ⟨rfl, rfl⟩]
      · simp only [lineStep, postCur, h]
        show upd1 acc.1.cur l _ l = _
        unfold upd1
        rw [if_pos rfl]

/-- The look-ahead decision depends only on the line's current style, the
fabric inventory and the next-period cell. -/
lemma decideStyle_congr (d : ALNSData) (c c2 : Ctx) (t : ℤ) (nx : Option ℤ)
    (l s0 : ℕ) (hcur : c2.cur l = c.cur l) (hfab : c2.invFab = c.invFab)
    (hnxt : ∀ t2, nx = some t2 → c2.assign l t2 = c.assign l t2) :
    decideStyle d c2 t nx l s0 = decideStyle d c t nx l s0 := by
  unfold decideStyle
  rw [hcur, hfab]
  cases c.cur l with
  | none => rfl
  | some c0 =>
      dsimp only
      by_cases h1 : c0 = s0
      · rw [if_pos h1, if_pos h1]
      · rw [if_neg h1, if_neg h1]
        by_cases h2 : c.invFab s0 ≤ eps6
        · rw [if_pos h2, if_pos h2]
          cases nx with
          | some t2 => dsimp only; rw [hnxt t2 rfl]
          | none => rfl
        · rw [if_neg h2, if_neg h2]

/-- `postCell`/`postCur` depend only on the line's own fields. -/
lemma postCell_congr (d : ALNSData) (c c2 : Ctx) (t : ℤ) (nx : Option ℤ)
    (l : ℕ) (hcur : c2.cur l = c.cur l) (hfab : c2.invFab = c.invFab)
    (hcell : c2.assign l t = c.assign l t)
    (hnxt : ∀ t2, nx = some t2 → c2.assign l t2 = c.assign l t2) :
    postCell d t nx c2 l = postCell d t nx c l ∧
    postCur d t nx c2 l = postCur d t nx c l := by
  unfold postCell postCur
  rw [hcell, hcur]
  cases c.assign l t with
  | none => exact ⟨rfl, rfl⟩
  | some s0 =>
      have h := decideStyle_congr d c c2 t nx l s0 hcur hfab hnxt
      dsimp only
      rw [h]
      exact ⟨rfl, rfl⟩

/-- The per-line fold leaves untouched every line not in the processed
list. -/
lemma foldl_lineStep_frame (d : ALNSData) (t : ℤ) (nx : Option ℤ) (l : ℕ) :
    ∀ (ls : List ℕ), l ∉ ls → ∀ acc : Ctx × PP,
      (∀ u, (ls.foldl (lineStep d t nx) acc).1.assign l u
          = acc.1.assign l u) ∧
      (ls.foldl (lineStep d t nx) acc).1.cur l = acc.1.cur l := by
  intro ls
  induction ls with
  | nil => intro _ acc; exact ⟨fun u => rfl, rfl⟩
  | cons x rest ih =>
      intro hl acc
      have hlx : l ≠ x := fun h => hl (h ▸ List.mem_cons_self x rest)
      have hlr : l ∉ rest := fun h => hl (List.mem_cons_of_mem x h)
      rcases ih hlr (lineStep d t nx acc x) with ⟨ha, hc⟩
      rcases lineStep_frame_other d t nx acc x l hlx with ⟨ga, gc⟩
      rw [List.foldl_cons]
      exact ⟨fun u => by rw [ha u, ga u], by rw [hc, gc]⟩

/-- The per-line fold never modifies the fabric inventory. -/
lemma foldl_lineStep_invFab (d : ALNSData) (t : ℤ) (nx : Option ℤ) :
    ∀ (ls : List ℕ) (acc : Ctx × PP),
      (ls.foldl (lineStep d t nx) acc).1.invFab = acc.1.invFab := by
  intro ls
  induction ls with
  | nil => intro acc; rfl
  | cons x rest ih =>
      intro acc
      rw [List.foldl_cons, ih, lineStep_invFab]

/-- Per-line characterization of the line fold: with a duplicate-free line
list, each processed line's period cell and current style end at the
`postCell`/`postCur` values of the initial context. -/
lemma foldl_lineStep_self (d : ALNSData) (t : ℤ) (nx : Option ℤ) :
    ∀ (ls : List ℕ), ls.Nodup → ∀ l ∈ ls, ∀ acc : Ctx × PP,
      (ls.foldl (lineStep d t nx) acc).1.assign l t
        = postCell d t nx acc.1 l ∧
      (ls.foldl (lineStep d t nx) acc).1.cur l = postCur d t nx acc.1 l := by
  intro ls
  induction ls with
  | nil => intro _ l hl; exact absurd hl (List.not_mem_nil l)
  | cons x rest ih =>
      intro hnd l hl acc
      rcases List.nodup_cons.mp hnd with ⟨hxr, hndr⟩
      rw [List.foldl_cons]
      by_cases hlx : l = x
      · subst hlx
        rcases foldl_lineStep_frame d t nx l rest hxr
            (lineStep d t nx acc l) with ⟨ha, hc⟩
        rcases lineStep_self d t nx acc l with ⟨ga, gc⟩
        exact ⟨by rw [ha t, ga], by rw [hc, gc]⟩
      · have hlr : l ∈ rest := by
          rcases List.mem_cons.mp hl with h | h
          · exact absurd h hlx
          · exact h
        rcases ih hndr l hlr (lineStep d t nx acc x) with ⟨ha, hc⟩
        rcases lineStep_frame_other d t nx acc x l hlx with ⟨ga, gc⟩
        have hpc := postCell_congr d acc.1 (lineStep d t nx acc x).1 t nx l
          gc (lineStep_invFab d t nx acc x) (ga t) (fun t2 _ => ga t2)
        exact ⟨by rw [ha, hpc.1], by rw [hc, hpc.2]⟩

/-- The line fold writes no cell of a period other than the processed
one. -/
lemma foldl_lineStep_frame_time (d : ALNSData) (t : ℤ) (nx : Option ℤ)
    (l : ℕ) (u : ℤ) (hu : u ≠ t) :
    ∀ (ls : List ℕ) (acc : Ctx × PP),
      (ls.foldl (lineStep d t nx) acc).1.assign l u = acc.1.assign l u := by
  intro ls
  induction ls with
  | nil => intro acc; rfl
  | cons x rest ih =>
      intro acc
      rw [List.foldl_cons, ih, lineStep_frame_time d t nx acc x l u hu]

/-- A simulation period writes no cell of another period. -/
lemma periodStep_frame_time (d : ALNSData) (t : ℤ) (nx : Option ℤ) (c : Ctx)
    (l : ℕ) (u : ℤ) (hu : u ≠ t) :
    (periodStep d t nx c).assign l u = c.assign l u := by
  unfold periodStep
  dsimp only
  rw [foldl_assign_invariant (shipStep d t) (shipStep_assign d t),
    foldl_assign_invariant _ (fun c s => realizeStep_assign d t _ c s),
    foldl_lineStep_frame_time d t nx l u hu,
    foldl_assign_invariant (fabricStep d t) (fabricStep_assign d t)]

/-- The simulation loop writes no cell of a period outside the remaining
period list. -/
lemma simLoop_frame_time (d : ALNSData) (cutoff : WithTop ℚ) (l : ℕ)
    (u : ℤ) :
    ∀ (ts : List ℤ), u ∉ ts → ∀ c : Ctx,
      (simLoop d cutoff c ts).1.assign l u = c.assign l u := by
  intro ts
  induction ts with
  | nil => intro _ c; rfl
  | cons t rest ih =>
      intro hu c
      have hut : u ≠ t := fun h => hu (h ▸ List.mem_cons_self t rest)
      have hur : u ∉ rest := fun h => hu (List.mem_cons_of_mem t h)
      unfold simLoop
      split_ifs with hcut
      · rfl
      · rw [ih hur, periodStep_frame_time d t rest.head? c l u hut]

/-- An uncapped run is never aborted. -/
lemma simLoop_top_no_abort (d : ALNSData) :
    ∀ (ts : List ℤ) (c : Ctx), (simLoop d ⊤ c ts).2 = false := by
  intro ts
  induction ts with
  | nil => intro c; rfl
  | cons t rest ih =>
      intro c
      unfold simLoop
      rw [if_neg not_top_lt]
      exact ih (periodStep d t rest.head? c)

/-- The fabric-receipt fold changes neither assignment nor current styles
nor anything the look-ahead reads besides the fabric inventory itself. -/
lemma fabricFold_fields (d : ALNSData) (t : ℤ) (c : Ctx) :
    (d.styleIds.foldl (fabricStep d t) c).assign = c.assign ∧
    (d.styleIds.foldl (fabricStep d t) c).cur = c.cur :=
  ⟨foldl_assign_invariant (fabricStep d t) (fabricStep_assign d t)
      d.styleIds c,
    foldl_cur_invariant (fabricStep d t) (fun _ _ => rfl) d.styleIds c⟩

/-- Per-line characterization of a full period: cell and current style of
a line of the instance end at the `postCell`/`postCur` of the post-receipt
context. -/
lemma periodStep_self (d : ALNSData) (hnd : d.lines.Nodup) (t : ℤ)
    (nx : Option ℤ) (c : Ctx) (l : ℕ) (hl : l ∈ d.lines) :
    (periodStep d t nx c).assign l t
      = postCell d t nx (d.styleIds.foldl (fabricStep d t) c) l ∧
    (periodStep d t nx c).cur l
      = postCur d t nx (d.styleIds.foldl (fabricStep d t) c) l := by
  unfold periodStep
  dsimp only
  rw [foldl_assign_invariant (shipStep d t) (shipStep_assign d t),
    foldl_cur_invariant (shipStep d t) (fun _ _ => rfl),
    foldl_assign_invariant _ (fun c s => realizeStep_assign d t _ c s),
    foldl_cur_invariant _ (fun c s => realizeStep_cur d t _ c s)]
  exact foldl_lineStep_self d t nx d.lines hnd l hl _

/-- If a line's current style equals its cell at the processed period, the
period leaves that cell unchanged. -/
lemma periodStep_cell_eq_cur (d : ALNSData) (hnd : d.lines.Nodup) (t0 : ℤ)
    (nx : Option ℤ) (c : Ctx) (l : ℕ) (hcur : c.cur l = c.assign l t0) :
    (periodStep d t0 nx c).assign l t0 = c.assign l t0 := by
  by_cases hl : l ∈ d.lines
  · rw [(periodStep_self d hnd t0 nx c l hl).1]
    unfold postCell
    rcases fabricFold_fields d t0 c with ⟨hfa, hfc⟩
    rw [hfa]
    cases hc : c.assign l t0 with
    | none => rfl
    | some s0 =>
        dsimp only
        have hdec : decideStyle d (d.styleIds.foldl (fabricStep d t0) c) t0
            nx l s0 = s0 := by
          unfold decideStyle
          rw [hfc, hcur, hc]
          dsimp only
          rw [if_pos rfl]
        rw [hdec]
  · unfold periodStep
    dsimp only
    rw [foldl_assign_invariant (shipStep d t0) (shipStep_assign d t0),
      foldl_assign_invariant _ (fun c s => realizeStep_assign d t0 _ c s),
      (foldl_lineStep_frame d t0 nx l d.lines hl _).1,
      (fabricFold_fields d t0 c).1]

/-- If a line's current style agrees with its cell at the next period, the
whole remaining run leaves that cell unchanged. -/
lemma simLoop_cell_stable (d : ALNSData) (hndl : d.lines.Nodup) (t0 : ℤ)
    (rest2 : List ℤ) (c : Ctx) (l : ℕ) (hnotin : t0 ∉ rest2)
    (hcur : c.cur l = c.assign l t0) :
    (simLoop d ⊤ c (t0 :: rest2)).1.assign l t0 = c.assign l t0 := by
  unfold simLoop
  rw [if_neg not_top_lt]
  rw [simLoop_frame_time d ⊤ l t0 rest2 hnotin]
  exact periodStep_cell_eq_cur d hndl t0 rest2.head? c l hcur

/-- Replace only the assignment grid of a context. -/
def withAssign (c : Ctx) (b : Assignment) : Ctx := { c with assign := b }

/-- If the guard situation applied (current style present and different,
with the candidate kept anyway), then either fabric was available or the
next period kept the candidate style. -/
lemma decideStyle_eq_cand_inv (d : ALNSData) (c : Ctx) (t : ℤ)
    (nx : Option ℤ) (l s0 c0 : ℕ) (hcur : c.cur l = some c0) (hne : c0 ≠ s0)
    (h : decideStyle d c t nx l s0 = s0) :
    ¬ c.invFab s0 ≤ eps6 ∨
    (∃ t2, nx = some t2 ∧ c.assign l t2 = some s0) := by
  unfold decideStyle at h
  rw [hcur] at h
  dsimp only at h
  rw [if_neg hne] at h
  by_cases h2 : c.invFab s0 ≤ eps6
  · rw [if_pos h2] at h
    cases nx with
    | some t2 =>
        dsimp only at h
        right
        refine ⟨t2, rfl, ?_⟩
        by_cases h3 : c.assign l t2 = some s0
        · exact h3
        · rw [if_neg h3] at h
          exact absurd h hne
    | none => exact absurd h hne
  · exact Or.inl h2

/-- Value of the look-ahead decision with no current style. -/
lemma decideStyle_val_none (d : ALNSData) (c : Ctx) (t : ℤ) (nx : Option ℤ)
    (l s0 : ℕ) (hcur : c.cur l = none) : decideStyle d c t nx l s0 = s0 := by
  unfold decideStyle; rw [hcur]

/-- Value of the look-ahead decision when the current style is the
candidate. -/
lemma decideStyle_val_same (d : ALNSData) (c : Ctx) (t : ℤ) (nx : Option ℤ)
    (l s0 c0 : ℕ) (hcur : c.cur l = some c0) (h : c0 = s0) :
    decideStyle d c t nx l s0 = s0 := by
  unfold decideStyle; rw [hcur]; dsimp only; rw [if_pos h]

/-- Value of the look-ahead decision with available fabric. -/
lemma decideStyle_val_fab (d : ALNSData) (c : Ctx) (t : ℤ) (nx : Option ℤ)
    (l s0 c0 : ℕ) (hcur : c.cur l = some c0) (hne : c0 ≠ s0)
    (hf : ¬ c.invFab s0 ≤ eps6) : decideStyle d c t nx l s0 = s0 := by
  unfold decideStyle; rw [hcur]; dsimp only; rw [if_neg hne, if_neg hf]

/-- Value of the look-ahead decision when the next period keeps the
candidate style (the front-loaded switch). -/
lemma decideStyle_val_keep (d : ALNSData) (c : Ctx) (t : ℤ) (nx : Option ℤ)
    (l s0 c0 : ℕ) (t2 : ℤ) (hcur : c.cur l = some c0) (hne : c0 ≠ s0)
    (hf : c.invFab s0 ≤ eps6) (hnx : nx = some t2)
    (hcell : c.assign l t2 = some s0) : decideStyle d c t nx l s0 = s0 := by
  unfold decideStyle
  rw [hcur]
  dsimp only
  rw [if_neg hne, if_pos hf, hnx]
  dsimp only
  rw [if_pos hcell]

/-- Re-running a line's step on the run's own output cell reproduces the
step exactly: same state effects and no further rewrite.  The `hb2`
hypothesis pins the next-period cell only in the situation where the
guard read it (switch allowed by the front-load rule). -/
lemma lineStep_restep (d : ALNSData) (t : ℤ) (nx : Option ℤ) (c : Ctx)
    (pp : PP) (l : ℕ) (b : Assignment)
    (hbt : b l t = postCell d t nx c l)
    (hb2 : ∀ t2, nx = some t2 → ∀ s0 c0, c.assign l t = some s0 →
      c.cur l = some c0 → c0 ≠ s0 → c.invFab s0 ≤ eps6 →
      c.assign l t2 = some s0 → b l t2 = some s0) :
    lineStep d t nx (withAssign c b, pp) l
      = (withAssign (lineStep d t nx (c, pp) l).1 b,
         (lineStep d t nx (c, pp) l).2) := by
  cases hc : c.assign l t with
  | none =>
      have hca : (withAssign c b).assign l t = none := by
        show b l t = none
        rw [hbt]; simp [postCell, hc]
      simp only [lineStep, hca, hc]
      dsimp only [withAssign]
  | some s0 =>
      have hbt' : b l t = some (decideStyle d c t nx l s0) := by
        rw [hbt]; simp [postCell, hc]
      have hcur2 : (withAssign c b).cur l = c.cur l := rfl
      have hs2 : decideStyle d (withAssign c b) t nx l
          (decideStyle d c t nx l s0) = decideStyle d c t nx l s0 := by
        cases hcv : c.cur l with
        | none =>
            exact decideStyle_val_none d (withAssign c b) t nx l _
              (hcur2.trans hcv)
        | some c0 =>
            by_cases hc0 : c0 = decideStyle d c t nx l s0
            · exact decideStyle_val_same d (withAssign c b) t nx l _ c0
                (hcur2.trans hcv) hc0
            · have hss0 : decideStyle d c t nx l s0 = s0 := by
                rcases decideStyle_cases d c t nx l s0 with h | h
                · exact h
                · exfalso
                  rw [hcv] at h
                  exact hc0 (Option.some.inj h)
              rw [hss0]
              rw [hss0] at hc0
              rcases decideStyle_eq_cand_inv d c t nx l s0 c0 hcv hc0 hss0
                with hf | ⟨t2, hnx, hcell2⟩
              · exact decideStyle_val_fab d (withAssign c b) t nx l s0 c0
                  (hcur2.trans hcv) hc0 hf
              · by_cases hf : c.invFab s0 ≤ eps6
                · exact decideStyle_val_keep d (withAssign c b) t nx l s0 c0
                    t2 (hcur2.trans hcv) hc0 hf hnx
                    (hb2 t2 hnx s0 c0 hc hcv hc0 hf hcell2)
                · exact decideStyle_val_fab d (withAssign c b) t nx l s0 c0
                    (hcur2.trans hcv) hc0 hf
      have hca : (withAssign c b).assign l t
          = some (decideStyle d c t nx l s0) := hbt'
      simp only [lineStep, hca, hc]
      rw [hs2]
      simp only [eq_self_iff_true, if_true]
      dsimp only [withAssign]

/-- Fold version of `lineStep_restep` over a duplicate-free line list. -/
lemma foldl_lineStep_restep (d : ALNSData) (t : ℤ) (nx : Option ℤ) :
    ∀ (ls : List ℕ), ls.Nodup → ∀ (c : Ctx) (pp : PP) (b : Assignment),
      (∀ l ∈ ls, b l t = postCell d t nx c l) →
      (∀ l ∈ ls, ∀ t2, nx = some t2 → ∀ s0 c0, c.assign l t = some s0 →
        c.cur l = some c0 → c0 ≠ s0 → c.invFab s0 ≤ eps6 →
        c.assign l t2 = some s0 → b l t2 = some s0) →
      ls.foldl (lineStep d t nx) (withAssign c b, pp)
        = (withAssign (ls.foldl (lineStep d t nx) (c, pp)).1 b,
           (ls.foldl (lineStep d t nx) (c, pp)).2) := by
  intro ls
  induction ls with
  | nil => intro _ c pp b _ _; rfl
  | cons x rest ih =>
      intro hnd c pp b hb1 hb2
      rcases List.nodup_cons.mp hnd with ⟨hx, hnd2⟩
      rw [List.foldl_cons, List.foldl_cons]
      rw [lineStep_restep d t nx c pp x b (hb1 x (List.mem_cons_self x rest))
        (hb2 x (List.mem_cons_self x rest))]
      have hcx := lineStep_invFab d t nx (c, pp) x
      have hb1' : ∀ l ∈ rest, b l t
          = postCell d t nx (lineStep d t nx (c, pp) x).1 l := by
        intro l hl
        have hlx : l ≠ x := fun h => hx (h ▸ hl)
        rcases lineStep_frame_other d t nx (c, pp) x l hlx with ⟨hfa, hfc⟩
        rw [(postCell_congr d c (lineStep d t nx (c, pp) x).1 t nx l hfc hcx
          (hfa t) (fun t2 _ => hfa t2)).1]
        exact hb1 l (List.mem_cons_of_mem x hl)
      have hb2' : ∀ l ∈ rest, ∀ t2, nx = some t2 → ∀ s0 c0,
          (lineStep d t nx (c, pp) x).1.assign l t = some s0 →
          (lineStep d t nx (c, pp) x).1.cur l = some c0 → c0 ≠ s0 →
          (lineStep d t nx (c, pp) x).1.invFab s0 ≤ eps6 →
          (lineStep d t nx (c, pp) x).1.assign l t2 = some s0 →
          b l t2 = some s0 := by
        intro l hl t2 hnx s0 c0 h1 h2 h3 h4 h5
        have hlx : l ≠ x := fun h => hx (h ▸ hl)
        rcases lineStep_frame_other d t nx (c, pp) x l hlx with ⟨hfa, hfc⟩
        rw [hfa t] at h1
        rw [hfc] at h2
        rw [hcx] at h4
        rw [hfa t2] at h5
        exact hb2 l (List.mem_cons_of_mem x hl) t2 hnx s0 c0 h1 h2 h3 h4 h5
      exact ih hnd2 (lineStep d t nx (c, pp) x).1
        (lineStep d t nx (c, pp) x).2 b hb1' hb2'

/-- Overriding the assignment grid commutes with an assignment-blind step
fold. -/
lemma foldl_withAssign {β : Type} (f : Ctx → β → Ctx) (b : Assignment)
    (hf : ∀ c x, f (withAssign c b) x = withAssign (f c x) b) :
    ∀ (xs : List β) (c : Ctx),
      xs.foldl f (withAssign c b) = withAssign (xs.foldl f c) b := by
  intro xs
  induction xs with
  | nil => intro c; rfl
  | cons x rest ih =>
      intro c
      rw [List.foldl_cons, List.foldl_cons, hf, ih]

/-- Fabric receipt commutes with an assignment override. -/
lemma fabricStep_withAssign (d : ALNSData) (t : ℤ) (b : Assignment)
    (c : Ctx) (s : ℕ) :
    fabricStep d t (withAssign c b) s = withAssign (fabricStep d t c s) b :=
  rfl

/-- Share distribution commutes with an assignment override. -/
lemma applyShares_withAssign (t : ℤ) (s : ℕ) (actual total : ℚ)
    (b : Assignment) (items : List (ℕ × ℚ)) (c : Ctx) :
    applyShares t s actual total (withAssign c b) items
      = withAssign (applyShares t s actual total c items) b := by
  unfold applyShares
  apply foldl_withAssign
  intro c' i
  dsimp only
  split_ifs
  · rfl
  · rfl

/-- Realization commutes with an assignment override. -/
lemma realizeStep_withAssign (d : ALNSData) (t : ℤ) (pp : PP)
    (b : Assignment) (c : Ctx) (s : ℕ) :
    realizeStep d t pp (withAssign c b) s
      = withAssign (realizeStep d t pp c s) b := by
  unfold realizeStep
  cases pp s with
  | nil => rfl
  | cons i rest =>
      dsimp only
      split_ifs
      · exact applyShares_withAssign t s
          (min (sumPot (i :: rest)) (c.invFab s)) (sumPot (i :: rest)) b
          (i :: rest)
          { c with
              hist := upd2 c.hist s t (min (sumPot (i :: rest)) (c.invFab s))
              invFab := upd1 c.invFab s
                (c.invFab s - min (sumPot (i :: rest)) (c.invFab s)) }
      · rfl

/-- Shipment commutes with an assignment override. -/
lemma shipStep_withAssign (d : ALNSData) (t : ℤ) (b : Assignment) (c : Ctx)
    (s : ℕ) :
    shipStep d t (withAssign c b) s = withAssign (shipStep d t c s) b :=
  rfl

/-- Re-running a full period on its own per-period output cells (with all
other periods overridden consistently) reproduces the period exactly on
every state field, leaving the override grid as the assignment. -/
lemma periodStep_restep (d : ALNSData) (hnd : d.lines.Nodup) (t : ℤ)
    (nx : Option ℤ) (c : Ctx) (b : Assignment)
    (hb1 : ∀ l ∈ d.lines, b l t
      = postCell d t nx (d.styleIds.foldl (fabricStep d t) c) l)
    (hb2 : ∀ l ∈ d.lines, ∀ t2, nx = some t2 → ∀ s0 c0,
      (d.styleIds.foldl (fabricStep d t) c).assign l t = some s0 →
      (d.styleIds.foldl (fabricStep d t) c).cur l = some c0 → c0 ≠ s0 →
      (d.styleIds.foldl (fabricStep d t) c).invFab s0 ≤ eps6 →
      (d.styleIds.foldl (fabricStep d t) c).assign l t2 = some s0 →
      b l t2 = some s0) :
    periodStep d t nx (withAssign c b)
      = withAssign (periodStep d t nx c) b := by
  unfold periodStep
  dsimp only
  rw [foldl_withAssign (fabricStep d t) b (fabricStep_withAssign d t b)
    d.styleIds c]
  rw [foldl_lineStep_restep d t nx d.lines hnd
    (d.styleIds.foldl (fabricStep d t) c) (fun _ => []) b hb1 hb2]
  dsimp only
  rw [foldl_withAssign (realizeStep d t _) b (realizeStep_withAssign d t _ b)
    d.styleIds _]
  rw [foldl_withAssign (shipStep d t) b (shipStep_withAssign d t b)
    d.styleIds _]

/-- `simLoop_cell_stable` through the `head?` of the remaining periods. -/
lemma simLoop_cell_stable_head (d : ALNSData) (hndl : d.lines.Nodup)
    (rest : List ℤ) (t2 : ℤ) (hh : rest.head? = some t2)
    (hnd : rest.Nodup) (c : Ctx) (l : ℕ)
    (hcur : c.cur l = c.assign l t2) :
    (simLoop d ⊤ c rest).1.assign l t2 = c.assign l t2 := by
  cases rest with
  | nil => cases hh
  | cons r rest2 =>
      have hr : r = t2 := by simpa using hh
      subst hr
      exact simLoop_cell_stable d hndl r rest2 c l
        (List.nodup_cons.mp hnd).1 hcur

/-- One-step equation of the unbounded-ceiling simulation loop. -/
lemma simLoop_cons_top (d : ALNSData) (c : Ctx) (t : ℤ) (rest : List ℤ) :
    simLoop d ⊤ c (t :: rest)
      = simLoop d ⊤ (periodStep d t rest.head? c) rest := by
  unfold simLoop
  rw [if_neg not_top_lt]
  cases rest with
  | nil => rfl
  | cons t1 rest1 => rfl

/-- Master stability lemma: overriding the input grid of a full
(unbounded-ceiling) simulation with its own final assignment grid and
re-running it reproduces the simulation exactly. -/
lemma simLoop_stable (d : ALNSData) (hndl : d.lines.Nodup) :
    ∀ (ts : List ℤ), ts.Nodup → ∀ c : Ctx,
      simLoop d ⊤ (withAssign c ((simLoop d ⊤ c ts).1.assign)) ts
        = simLoop d ⊤ c ts := by
  intro ts
  induction ts with
  | nil => intro _ c; rfl
  | cons t rest ih =>
      intro hnd c
      rcases List.nodup_cons.mp hnd with ⟨ht, hnd2⟩
      rw [simLoop_cons_top d c t rest]
      rw [simLoop_cons_top d (withAssign c
        ((simLoop d ⊤ (periodStep d t rest.head? c) rest).1.assign)) t rest]
      have hb1 : ∀ l ∈ d.lines,
          (simLoop d ⊤ (periodStep d t rest.head? c) rest).1.assign l t
            = postCell d t rest.head?
                (d.styleIds.foldl (fabricStep d t) c) l := by
        intro l hl
        rw [simLoop_frame_time d ⊤ l t rest ht (periodStep d t rest.head? c)]
        exact (periodStep_self d hndl t rest.head? c l hl).1
      have hb2 : ∀ l ∈ d.lines, ∀ t2, rest.head? = some t2 → ∀ s0 c0,
          (d.styleIds.foldl (fabricStep d t) c).assign l t = some s0 →
          (d.styleIds.foldl (fabricStep d t) c).cur l = some c0 → c0 ≠ s0 →
          (d.styleIds.foldl (fabricStep d t) c).invFab s0 ≤ eps6 →
          (d.styleIds.foldl (fabricStep d t) c).assign l t2 = some s0 →
          (simLoop d ⊤ (periodStep d t rest.head? c) rest).1.assign l t2
            = some s0 := by
        intro l hl t2 hnx s0 c0 h1 h2 h3 h4 h5
        have ht2 : t2 ∈ rest := List.mem_of_mem_head? (by rw [hnx]; rfl)
        have ht2t : t2 ≠ t := fun h => ht (h ▸ ht2)
        have hcur1 : (periodStep d t rest.head? c).cur l = some s0 := by
          rw [(periodStep_self d hndl t rest.head? c l hl).2]
          simp only [postCur, h1]
          rw [decideStyle_val_keep d (d.styleIds.foldl (fabricStep d t) c) t
            rest.head? l s0 c0 t2 h2 h3 h4 hnx h5]
        have hass1 : (periodStep d t rest.head? c).assign l t2 = some s0 := by
          rw [periodStep_frame_time d t rest.head? c l t2 ht2t]
          rw [← (fabricFold_fields d t c).1]
          exact h5
        rw [simLoop_cell_stable_head d hndl rest t2 hnx hnd2
          (periodStep d t rest.head? c) l (hcur1.trans hass1.symm)]
        exact hass1
      rw [periodStep_restep d hndl t rest.head? c
        ((simLoop d ⊤ (periodStep d t rest.head? c) rest).1.assign) hb1 hb2]
      exact ih hnd2 (periodStep d t rest.head? c)

/-- The repair pass is the identity on a capability-feasible grid. -/
lemma repairA_id (d : ALNSData) (pick : ℕ → ℕ) (a : Assignment)
    (h : cellsOK d a) : repairA d pick a = a := by
  funext l t
  unfold repairA
  by_cases hg : l ∈ d.lines ∧ t ∈ d.sortedTimes
  · rw [if_pos hg]
    rcases h l hg.1 t hg.2 with ⟨s, hs, hmem⟩
    unfold repairCell
    rw [hs]
    dsimp only
    have hb : allowedB d l s = true := by
      unfold allowedB
      simpa using hmem
    rw [if_pos hb]
  · rw [if_neg hg]

/-- C10, amended.  On an instance whose line and period lists are
duplicate-free, where every line's allowed-style set is non-empty, the
random repair choice is valid, and additionally every line's initial
`paramY0` style is either absent or capability-enabled (the hypothesis the
counterexample `c10_counterexample` violates), evaluating an already
capability-feasible assignment with the pruning ceiling `⊤` and then
evaluating the returned solution again yields the identical `Sol` — all
fields included. -/
theorem c10_amended (d : ALNSData) (pick : ℕ → ℕ) (a : Assignment)
    (hall : ∀ l ∈ d.lines, d.allowed l ≠ [])
    (hpick : ∀ l ∈ d.lines, pick l ∈ d.allowed l)
    (hy0 : ∀ l ∈ d.lines, ∀ s, initialStyleId d l = some s →
      s ∈ d.allowed l)
    (hfeas : cellsOK d a)
    (hndl : d.lines.Nodup) (hndt : d.sortedTimes.Nodup) :
    repair_and_evaluate d pick ⊤
        ((repair_and_evaluate d pick ⊤ a).assignment)
      = repair_and_evaluate d pick ⊤ a := by
  have hfeas2 : cellsOK d
      (simLoop d ⊤ (mkCtx d (repairA d pick a)) d.sortedTimes).1.assign :=
    simLoop_ok d ⊤ d.sortedTimes (fun u hu => hu)
      (mkCtx d (repairA d pick a))
      (repairA_cellsOK d pick a hall hpick)
      (fun l hl s hs => hy0 l hl s hs)
  unfold repair_and_evaluate
  dsimp only
  simp only [finalizeSol]
  rw [repairA_id d pick
    (simLoop d ⊤ (mkCtx d (repairA d pick a)) d.sortedTimes).1.assign hfeas2]
  rw [show mkCtx d
      (simLoop d ⊤ (mkCtx d (repairA d pick a)) d.sortedTimes).1.assign
    = withAssign (mkCtx d (repairA d pick a))
        (simLoop d ⊤ (mkCtx d (repairA d pick a)) d.sortedTimes).1.assign
    from rfl]
  rw [simLoop_stable d hndl d.sortedTimes hndt (mkCtx d (repairA d pick a))]

/-- C10, witness: on `dataC1` with the feasible single-cell grid `aC1`,
re-evaluating the returned solution reproduces it exactly. -/
theorem c10_amended_witness :
    repair_and_evaluate dataC1 pick0 ⊤
        ((repair_and_evaluate dataC1 pick0 ⊤ aC1).assignment)
      = repair_and_evaluate dataC1 pick0 ⊤ aC1 :=
  c10_amended dataC1 pick0 aC1
    (by intro l hl; fin_cases hl; decide)
    (by intro l hl; fin_cases hl; decide)
    (by
      intro l hl s hs
      fin_cases hl
      rw [show initialStyleId dataC1 0 = some 1 from by decide] at hs
      have h1 : (1 : ℕ) = s := by injection hs
      rw [← h1]
      decide)
    (by
      intro l hl t ht
      fin_cases hl
      fin_cases ht
      exact ⟨0, rfl, by decide⟩)
    (by decide)
    (by decide)
